import Mathlib

/-!
Verification of `scripts/reorganize-by-tags.py`.

The script reads an OpenAPI document (a YAML mapping), computes a new ordering
of its top-level `paths` mapping grouped by each path's primary tag, and writes
the result back.  We give a shallow embedding of the core function
`reorganize_paths_by_tags` over a model of YAML values with Python's dynamic
semantics (truthiness, subscripting errors, hashability, `==` equality), and
prove the spec's testable properties about it.
-/

/-- A YAML value as produced by `yaml.safe_load`, restricted to string-keyed
mappings and excluding floats/dates. -/
inductive Yaml where
  | str : String → Yaml
  | int : Int → Yaml
  | bool : Bool → Yaml
  | null : Yaml
  | seq : List Yaml → Yaml
  | map : List (String × Yaml) → Yaml
deriving Repr

/-- A Python runtime error that the script can raise. -/
inductive PyErr where
  | keyError (k : String) : PyErr
  | typeError : PyErr
  | attributeError : PyErr
  | indexError : PyErr
deriving Repr, DecidableEq

/-- Python truthiness of a value (`if v:`). -/
def truthy : Yaml → Bool
  | .str s => !s.data.isEmpty
  | .int n => n != 0
  | .bool b => b
  | .null => false
  | .seq l => !l.isEmpty
  | .map l => !l.isEmpty

/-- Whether a value is hashable in Python (usable as a `dict` key). -/
def hashable : Yaml → Bool
  | .seq _ => false
  | .map _ => false
  | _ => true

/-- Python `==` between values.  It is only ever invoked by the script with at
least one scalar operand (dictionary keys are hashable), where the cross-type
identifications are `True == 1` and `False == 0`. -/
def pyEq : Yaml → Yaml → Bool
  | .str a, .str b => a == b
  | .int a, .int b => a == b
  | .bool a, .bool b => a == b
  | .int a, .bool b => a == (if b then (1 : Int) else 0)
  | .bool a, .int b => (if a then (1 : Int) else 0) == b
  | .null, .null => true
  | _, _ => false

/-- First-match lookup in a string-keyed mapping (`d[k]` hit / `k in d`). -/
def lookupStr : List (String × Yaml) → String → Option Yaml
  | [], _ => none
  | (k, v) :: rest, key => if k = key then some v else lookupStr rest key

/-- Python `v[0]`. -/
def getItem0 : Yaml → Except PyErr Yaml
  | .seq [] => .error .indexError
  | .seq (x :: _) => .ok x
  | .str s =>
    match s.data with
    | [] => .error .indexError
    | c :: _ => .ok (.str (String.mk [c]))
  | .map _ => .error (.keyError "0")
  | _ => .error .typeError

/-- Python `v[k]` for a string key `k`. -/
def getItemStr : Yaml → String → Except PyErr Yaml
  | .map kvs, k =>
    match lookupStr kvs k with
    | some v => Except.ok v
    | none => Except.error (.keyError k)
  | _, _ => Except.error .typeError

/-- Python `for x in v` (iteration over a value). -/
def pyIter : Yaml → Except PyErr (List Yaml)
  | .seq l => .ok l
  | .map kvs => .ok (kvs.map fun kv => .str kv.1)
  | .str s => .ok (s.data.map fun c => .str (String.mk [c]))
  | _ => .error .typeError

/-- `tag_order = [tag['name'] for tag in api_spec.get('tags', [])]`. -/
def tagOrderOf (api_spec : List (String × Yaml)) : Except PyErr (List Yaml) := do
  let tagsVal := (lookupStr api_spec "tags").getD (.seq [])
  let tags ← pyIter tagsVal
  tags.mapM (fun t => getItemStr t "name")

/-- The per-path scan: first `operation['tags'][0]` over the PathItem's entries
in key order, breaking at the first entry that is a mapping whose `tags` value
is truthy.  Returns `none` when no entry sets `primary_tag`. -/
def findPrimaryTag : List (String × Yaml) → Except PyErr (Option Yaml)
  | [] => .ok none
  | (_, op) :: rest =>
    match op with
    | .map kvs =>
      match lookupStr kvs "tags" with
      | some tv =>
        if truthy tv then (getItem0 tv).map some
        else findPrimaryTag rest
      | none => findPrimaryTag rest
    | _ => findPrimaryTag rest

/-- `path_spec.items()` then the scan; a non-mapping PathItem raises
`AttributeError` at `.items()`. -/
def scanPath : Yaml → Except PyErr (Option Yaml)
  | .map entries => findPrimaryTag entries
  | _ => .error .attributeError

/-- `if primary_tag: ... else: 'untagged'` — the bucket key a path is filed
under.  Note Python tests the *truthiness* of `primary_tag`, so a falsy scan
result (e.g. the empty string) also falls back to the sentinel. -/
def bucketKeyOf : Option Yaml → Yaml
  | some t => if truthy t then t else .str "untagged"
  | none => .str "untagged"

abbrev Bucket := List (String × Yaml)
abbrev Buckets := List (Yaml × Bucket)

/-- `paths_by_tag[k].append(pv)` on a `defaultdict(list)`: append to the first
bucket whose key compares `==` to `k`, else create a new bucket at the end. -/
def addToBucket : Buckets → Yaml → (String × Yaml) → Buckets
  | [], k, pv => [(k, [pv])]
  | (k', b) :: rest, k, pv =>
    if pyEq k' k then (k', b ++ [pv]) :: rest
    else (k', b) :: addToBucket rest k pv

/-- The grouping loop over `api_spec['paths'].items()`.  An unhashable bucket
key raises `TypeError` at the `defaultdict` access. -/
def groupPathsAux (bs : Buckets) : List (String × Yaml) → Except PyErr Buckets
  | [] => .ok bs
  | pv :: rest =>
    match scanPath pv.2 with
    | .error e => .error e
    | .ok r =>
      if hashable (bucketKeyOf r) then
        groupPathsAux (addToBucket bs (bucketKeyOf r) pv) rest
      else .error .typeError

def groupPaths (items : List (String × Yaml)) : Except PyErr Buckets :=
  groupPathsAux [] items

/-- `new_paths[path] = path_spec` on an `OrderedDict`: an existing key keeps
its position and gets the new value; a new key is appended at the end. -/
def odInsert (np : List (String × Yaml)) (k : String) (v : Yaml) :
    List (String × Yaml) :=
  if k ∈ np.map Prod.fst then
    np.map (fun kv => if kv.1 = k then (k, v) else kv)
  else np ++ [(k, v)]

/-- Lexicographic `≤` on character lists by code point — Python's string
comparison. -/
def lexLe : List Char → List Char → Bool
  | [], _ => true
  | _ :: _, [] => false
  | c :: cs, d :: ds =>
    if c.toNat < d.toNat then true
    else if d.toNat < c.toNat then false
    else lexLe cs ds

/-- Python `a <= b` on strings. -/
def strLe (a b : String) : Bool := lexLe a.data b.data

/-- Stable insertion of a pair into a bucket sorted by path string. -/
def ordInsert (pv : String × Yaml) : Bucket → Bucket
  | [] => [pv]
  | qv :: rest =>
    if strLe pv.1 qv.1 then pv :: qv :: rest else qv :: ordInsert pv rest

/-- `sorted(bucket, key=lambda x: x[0])` — stable sort by path string. -/
def sortByKey : Bucket → Bucket
  | [] => []
  | pv :: rest => ordInsert pv (sortByKey rest)

/-- Fold a list of pairs into `new_paths` with `odInsert`. -/
def odInsertAll (np : List (String × Yaml)) (l : Bucket) : List (String × Yaml) :=
  l.foldl (fun acc pv => odInsert acc pv.1 pv.2) np

/-- Emit one bucket into `new_paths`: insert its pairs sorted by path string. -/
def emitBucket (np : List (String × Yaml)) (b : Bucket) : List (String × Yaml) :=
  odInsertAll np (sortByKey b)

/-- `tag in paths_by_tag` / `paths_by_tag[tag]`: first bucket whose key
compares `==` to `t`. -/
def bucketFind (bs : Buckets) (t : Yaml) : Option (Yaml × Bucket) :=
  bs.find? (fun kb => pyEq kb.1 t)

/-- Python `t in l` for a list. -/
def pyMem (t : Yaml) (l : List Yaml) : Bool := l.any (fun x => pyEq t x)

/-- Loop 1: `for tag in tag_order: if tag in paths_by_tag: ...` — an unhashable
tag raises `TypeError` at the membership test. -/
def emitDeclared (bs : Buckets) :
    List Yaml → List (String × Yaml) → Except PyErr (List (String × Yaml))
  | [], np => .ok np
  | t :: ts, np =>
    if hashable t then
      match bucketFind bs t with
      | some kb => emitDeclared bs ts (emitBucket np kb.2)
      | none => emitDeclared bs ts np
    else .error .typeError

/-- Loop 2: `if 'untagged' in paths_by_tag: ...`. -/
def emitUntagged (bs : Buckets) (np : List (String × Yaml)) :
    List (String × Yaml) :=
  match bucketFind bs (.str "untagged") with
  | some kb => emitBucket np kb.2
  | none => np

/-- Loop 3: `for tag in paths_by_tag: if tag not in tag_order and tag != 'untagged': ...`. -/
def emitUnlistedAux (tor : List Yaml) :
    Buckets → List (String × Yaml) → List (String × Yaml)
  | [], np => np
  | kb :: rest, np =>
    if pyMem kb.1 tor || pyEq kb.1 (.str "untagged") then emitUnlistedAux tor rest np
    else emitUnlistedAux tor rest (emitBucket np kb.2)

/-- `reorganize_paths_by_tags(api_spec)`: the whole function.  The evaluation
order matches the script: tag order first, then the `paths` access, then the
grouping loop, then the three emission loops. -/
def reorganize_paths_by_tags (api_spec : List (String × Yaml)) :
    Except PyErr (List (String × Yaml)) :=
  match tagOrderOf api_spec with
  | .error e => .error e
  | .ok tag_order =>
    match lookupStr api_spec "paths" with
    | none => .error (.keyError "paths")
    | some pathsVal =>
      match pathsVal with
      | .map items =>
        match groupPaths items with
        | .error e => .error e
        | .ok bs =>
          match emitDeclared bs tag_order [] with
          | .error e => .error e
          | .ok np1 => .ok (emitUnlistedAux tag_order bs (emitUntagged bs np1))
      | _ => .error .attributeError

/-- The effective primary tag of a PathItem: the scan result passed through the
truthiness fallback — this is the key the path is bucketed under. -/
def pathPrimary (spec : Yaml) : Except PyErr Yaml :=
  (scanPath spec).map bucketKeyOf

/-- Index of the first occurrence of a string in a list (length if absent). -/
def idxOfStr : List String → String → Nat
  | [], _ => 0
  | x :: xs, p => if x = p then 0 else idxOfStr xs p + 1

/-- Index of the first element of a tag-order list that compares `==` to the
tag name `a` (length if absent). -/
def idxOfTag : List Yaml → String → Nat
  | [], _ => 0
  | t :: ts, a => if pyEq t (.str a) then 0 else idxOfTag ts a + 1

/-- Whether a PathItem entry value qualifies for the scan: a mapping whose
`tags` field is present and non-empty (truthy). -/
def qualifies : Yaml → Bool
  | .map kvs =>
    match lookupStr kvs "tags" with
    | some tv => truthy tv
    | none => false
  | _ => false

/-- The `tags` value of an operation mapping (`null` when absent — only used
under `qualifies`). -/
def tagsValOf : Yaml → Yaml
  | .map kvs => (lookupStr kvs "tags").getD .null
  | _ => .null

/-- Modelled from the spec: "the primary tag is the first tag-name found in the
`tags` sequence of the first Operation-like entry (in key order) that has a
non-empty `tags` sequence; if no entry yields a primary tag, the path's primary
tag is the sentinel `untagged`". -/
def specClaimedPrimary (entries : List (String × Yaml)) : Except PyErr Yaml :=
  match entries.find? (fun e => qualifies e.2) with
  | some e => getItem0 (tagsValOf e.2)
  | none => .ok (.str "untagged")

/-- The amended spec formulation: as `specClaimedPrimary`, but a falsy first
tag element (empty string, `0`, `False`, `None`) also falls back to the
sentinel. -/
def specAmendedPrimary (entries : List (String × Yaml)) : Except PyErr Yaml :=
  match entries.find? (fun e => qualifies e.2) with
  | some e => (getItem0 (tagsValOf e.2)).map (fun x => if truthy x then x else .str "untagged")
  | none => .ok (.str "untagged")

/-- Whether an entry value is treated as an Operation by the scan: a mapping
with a `tags` field. -/
def isTaggedOpEntry : Yaml → Bool
  | .map kvs => (lookupStr kvs "tags").isSome
  | _ => false

/-- An operation value whose `tags` field, when truthy, is a non-empty sequence
with a hashable (scalar) head — the shapes on which the scan cannot raise. -/
def tagsFieldOk : Yaml → Bool
  | .map kvs =>
    match lookupStr kvs "tags" with
    | some tv =>
      if truthy tv then
        match tv with
        | .seq (x :: _) => hashable x
        | _ => false
      else true
    | none => true
  | _ => true

/-- A PathItem shape on which the per-path scan cannot raise: a mapping all of
whose entry values satisfy `tagsFieldOk`. -/
def pathItemOk : Yaml → Bool
  | .map entries => entries.all (fun e => tagsFieldOk e.2)
  | _ => false

/-- The contents of the bucket a query `t` hits (empty if none). -/
def bucketContents (bs : Buckets) (t : Yaml) : Bucket :=
  ((bucketFind bs t).map Prod.snd).getD []

/-- Whether a path item is filed under a bucket matching `t`: its effective
primary tag compares `==` to `t`. -/
def primB (pv : String × Yaml) (t : Yaml) : Bool :=
  match pathPrimary pv.2 with
  | .ok k => pyEq k t
  | .error _ => false

/-- Loop 1 without the hashability error (its behaviour whenever it returns
without raising). -/
def emitDeclaredP (bs : Buckets) : List Yaml → List (String × Yaml) → List (String × Yaml)
  | [], np => np
  | t :: ts, np =>
    match bucketFind bs t with
    | some kb => emitDeclaredP bs ts (emitBucket np kb.2)
    | none => emitDeclaredP bs ts np

/-- Deduplicate a list of (hashable) values up to Python `==`, keeping first
occurrences, with an accumulator of values already seen. -/
def pyDedupAcc (seen : List Yaml) : List Yaml → List Yaml
  | [] => []
  | x :: xs => if pyMem x seen then pyDedupAcc seen xs else x :: pyDedupAcc (x :: seen) xs

/-- The stored bucket keys hit by the declared tag order, in order, with
repetitions. -/
def declaredKeysRaw (bs : Buckets) (tor : List Yaml) : List Yaml :=
  tor.filterMap (fun t => (bucketFind bs t).map Prod.fst)

/-- The distinct bucket keys emitted by loop 1, in emission order. -/
def declaredKeys (bs : Buckets) (tor : List Yaml) : List Yaml :=
  pyDedupAcc [] (declaredKeysRaw bs tor)

/-- The canonical emission order of bucket keys: loop 1 (declared tags,
first occurrences), then the untagged bucket unless already emitted, then the
unlisted buckets in discovery order. -/
def emitOrderKeys (bs : Buckets) (tor : List Yaml) : List Yaml :=
  declaredKeys bs tor
    ++ (match bucketFind bs (.str "untagged") with
        | some kb => if pyMem (.str "untagged") tor then [] else [kb.1]
        | none => [])
    ++ (bs.map Prod.fst).filter (fun k => !(pyMem k tor) && !(pyEq k (.str "untagged")))

/-- The output as a concatenation of sorted bucket segments. -/
def segs (bs : Buckets) (ks : List Yaml) : List (String × Yaml) :=
  (ks.map (fun k => sortByKey (bucketContents bs k))).flatten

/-- A pair list sorted (non-strictly, lexicographically by code point) on the
path strings. -/
def SortedKeys (l : Bucket) : Prop :=
  l.Pairwise (fun x y => strLe x.1 y.1 = true)

/-- Bucket keys are pairwise distinct for Python `==` — the `defaultdict`
invariant. -/
def PyDistinct (bs : Buckets) : Prop :=
  bs.Pairwise (fun a b => pyEq a.1 b.1 = false)

/-- Replace the document's `paths` field with a new mapping (feeding the output
back as input for the idempotence property). -/
def setPaths (doc : List (String × Yaml)) (out : List (String × Yaml)) :
    List (String × Yaml) :=
  doc.map (fun kv => if kv.1 = "paths" then ("paths", .map out) else kv)

/-- Canonical hash key of a scalar: Python identifies `True` with `1` and
`False` with `0`; strings, remaining ints and `None` are their own classes.
Unhashable values have no key. -/
def pyKey : Yaml → Option (String ⊕ Int ⊕ Unit)
  | .str s => some (.inl s)
  | .int n => some (.inr (.inl n))
  | .bool b => some (.inr (.inl (if b then 1 else 0)))
  | .null => some (.inr (.inr ()))
  | .seq _ => none
  | .map _ => none

/-- The spec's pets/store scenario: declared tags `pets` then `store`;
paths `/store/order`, `/pets`, `/pets/{id}` come out as
`/pets`, `/pets/{id}`, `/store/order`. -/
theorem scenario_pets_store :
    reorganize_paths_by_tags
      [("tags", .seq [.map [("name", .str "pets")], .map [("name", .str "store")]]),
       ("paths", .map
         [("/store/order", .map [("get", .map [("tags", .seq [.str "store"])])]),
          ("/pets", .map [("get", .map [("tags", .seq [.str "pets"])])]),
          ("/pets/{id}", .map [("get", .map [("tags", .seq [.str "pets"])])])])]
    = .ok
      [("/pets", .map [("get", .map [("tags", .seq [.str "pets"])])]),
       ("/pets/{id}", .map [("get", .map [("tags", .seq [.str "pets"])])]),
       ("/store/order", .map [("get", .map [("tags", .seq [.str "store"])])])] := by
  rfl

/-! ### Basic facts about the Python equality model -/

theorem pyEq_iff_pyKey {a b : Yaml} :
    pyEq a b = true ↔ (pyKey a).isSome ∧ pyKey a = pyKey b := by
  cases a <;> cases b <;> simp [pyEq, pyKey, beq_iff_eq] <;>
    rename_i x y <;> cases x <;> cases y <;> simp

theorem hashable_iff_pyKey {a : Yaml} : hashable a = true ↔ (pyKey a).isSome := by
  cases a <;> simp [hashable, pyKey]

theorem pyEq_refl {a : Yaml} (h : hashable a = true) : pyEq a a = true :=
  pyEq_iff_pyKey.mpr ⟨hashable_iff_pyKey.mp h, rfl⟩

theorem pyEq_symm (a b : Yaml) : pyEq a b = pyEq b a := by
  rcases h : pyEq b a with _ | _
  · rcases h' : pyEq a b with _ | _
    · rfl
    · obtain ⟨hs, he⟩ := pyEq_iff_pyKey.mp h'
      exact absurd (pyEq_iff_pyKey.mpr ⟨he ▸ hs, he.symm⟩) (by simp [h])
  · obtain ⟨hs, he⟩ := pyEq_iff_pyKey.mp h
    exact pyEq_iff_pyKey.mpr ⟨he ▸ hs, he.symm⟩

theorem pyEq_trans {a b c : Yaml} (h1 : pyEq a b = true) (h2 : pyEq b c = true) :
    pyEq a c = true := by
  obtain ⟨hs1, he1⟩ := pyEq_iff_pyKey.mp h1
  obtain ⟨_, he2⟩ := pyEq_iff_pyKey.mp h2
  exact pyEq_iff_pyKey.mpr ⟨hs1, he1.trans he2⟩

theorem pyEq_scalar {a b : Yaml} (h : pyEq a b = true) :
    hashable a = true ∧ hashable b = true := by
  obtain ⟨hs, he⟩ := pyEq_iff_pyKey.mp h
  exact ⟨hashable_iff_pyKey.mpr hs, hashable_iff_pyKey.mpr (he ▸ hs)⟩

theorem pyEq_str_iff {s : String} {t : Yaml} : pyEq t (.str s) = true ↔ t = .str s := by
  cases t <;> simp [pyEq]

theorem pyEq_str_iff' {s : String} {t : Yaml} : pyEq (.str s) t = true ↔ t = .str s := by
  rw [pyEq_symm]; exact pyEq_str_iff

/-! ### C3: the primary tag -/

/-- The scan expressed through `List.find?`: the bucket key is the spec's
formula *amended* with the truthiness fallback. -/
theorem pathPrimary_eq_specAmendedPrimary (entries : List (String × Yaml)) :
    pathPrimary (.map entries) = specAmendedPrimary entries := by
  induction entries with
  | nil => rfl
  | cons e rest ih =>
    obtain ⟨m, op⟩ := e
    simp only [pathPrimary, scanPath, findPrimaryTag] at *
    cases op with
    | map kvs =>
      simp only [specAmendedPrimary, List.find?_cons, qualifies]
      cases hl : lookupStr kvs "tags" with
      | some tv =>
        simp only [hl]
        cases htr : truthy tv with
        | true =>
          simp only [if_pos rfl, cond_true]
          cases h0 : getItem0 tv with
          | ok x => simp [Except.map, h0, tagsValOf, hl, bucketKeyOf]
          | error ex => simp [Except.map, h0, tagsValOf, hl]
        | false =>
          simpa [specAmendedPrimary] using ih
      | none =>
        simp only [hl]
        simpa [specAmendedPrimary] using ih
    | str s => simpa [specAmendedPrimary, List.find?_cons, qualifies] using ih
    | int n => simpa [specAmendedPrimary, List.find?_cons, qualifies] using ih
    | bool b => simpa [specAmendedPrimary, List.find?_cons, qualifies] using ih
    | null => simpa [specAmendedPrimary, List.find?_cons, qualifies] using ih
    | seq l => simpa [specAmendedPrimary, List.find?_cons, qualifies] using ih

/-- **C3** — counterexample.  For the PathItem `{get: {tags: [""]}}` the first
qualifying entry's first tag element is `""`, so the claim says the primary tag
is `""`; the code computes the bucket key `"untagged"` because `""` is falsy. -/
theorem C3_primary_tag_counterexample :
    specClaimedPrimary [("get", Yaml.map [("tags", Yaml.seq [Yaml.str ""])])]
        = .ok (.str "") ∧
    pathPrimary (Yaml.map [("get", Yaml.map [("tags", Yaml.seq [Yaml.str ""])])])
        = .ok (.str "untagged") ∧
    Yaml.str "" ≠ Yaml.str "untagged" :=
  ⟨rfl, rfl, by simp⟩

/-- **C3** (amended): the primary tag is the first element of the `tags`
sequence of the first entry (in key order) that is a mapping with a non-empty
`tags` field, *provided that element is truthy*; a falsy element, like the
absence of any qualifying entry, yields the sentinel `"untagged"`.  Entries
after the first qualifying one are never consulted and entries with an empty
`tags` field do not stop the scan (both captured by the `List.find?`
formulation). -/
theorem C3_primary_tag :
    ∀ entries : List (String × Yaml),
      pathPrimary (.map entries) = specAmendedPrimary entries :=
  pathPrimary_eq_specAmendedPrimary

/-- **C8** — counterexample.  A document lacking `paths` whose `tags` value is
an integer fails at the tag-order computation with `TypeError`, not with the
missing-`paths` `KeyError`: the claim's "every document lacking `paths`" is too
broad. -/
theorem C8_missing_field_counterexample :
    lookupStr [("tags", Yaml.int 5)] "paths" = none ∧
    reorganize_paths_by_tags [("tags", Yaml.int 5)] = .error .typeError ∧
    (Except.error PyErr.typeError : Except PyErr (List (String × Yaml)))
      ≠ .error (.keyError "paths") :=
  ⟨rfl, rfl, by simp⟩

/-- **C8** (amended): if the `paths` field is absent and the tag-order
computation succeeds, `reorganize_paths_by_tags` fails with `KeyError "paths"`
— the explicit missing-required-field failure — rather than succeeding or
crashing silently. -/
theorem C8_missing_field (doc : List (String × Yaml)) (tor : List Yaml)
    (h1 : tagOrderOf doc = .ok tor) (h2 : lookupStr doc "paths" = none) :
    reorganize_paths_by_tags doc = .error (.keyError "paths") := by
  simp [reorganize_paths_by_tags, h1, h2]

/-- Witness for C8: the empty document. -/
theorem C8_missing_field_witness :
    reorganize_paths_by_tags [] = .error (.keyError "paths") :=
  C8_missing_field [] [] rfl rfl

/-! ### Success of the pipeline on well-shaped inputs -/

theorem findPrimaryTag_ok {entries : List (String × Yaml)}
    (h : ∀ e ∈ entries, tagsFieldOk e.2 = true) :
    ∃ r, findPrimaryTag entries = .ok r ∧ hashable (bucketKeyOf r) = true := by
  induction entries with
  | nil => exact ⟨none, rfl, rfl⟩
  | cons e rest ih =>
    obtain ⟨m, op⟩ := e
    have hop : tagsFieldOk op = true := h _ (List.mem_cons_self _ _)
    have hrest := ih (fun e he => h e (List.mem_cons_of_mem _ he))
    cases op with
    | map kvs =>
      cases hl : lookupStr kvs "tags" with
      | some tv =>
        cases htr : truthy tv with
        | true =>
          simp only [tagsFieldOk, hl, htr, if_pos rfl] at hop
          match tv, htr, hop with
          | .seq (x :: _), htr, hop =>
            refine ⟨some x, ?_, ?_⟩
            · simp [findPrimaryTag, hl, htr, getItem0, Except.map]
            · simp only [bucketKeyOf]
              cases truthy x <;> simp_all [hashable]
        | false =>
          obtain ⟨r, hr, hk⟩ := hrest
          exact ⟨r, by simp [findPrimaryTag, hl, htr, hr], hk⟩
      | none =>
        obtain ⟨r, hr, hk⟩ := hrest
        exact ⟨r, by simp [findPrimaryTag, hl, hr], hk⟩
    | str s => simpa [findPrimaryTag] using hrest
    | int n => simpa [findPrimaryTag] using hrest
    | bool b => simpa [findPrimaryTag] using hrest
    | null => simpa [findPrimaryTag] using hrest
    | seq l => simpa [findPrimaryTag] using hrest

theorem groupPathsAux_ok {items : List (String × Yaml)}
    (h : ∀ pv ∈ items, pathItemOk pv.2 = true) (bs : Buckets) :
    ∃ bs', groupPathsAux bs items = .ok bs' := by
  induction items generalizing bs with
  | nil => exact ⟨bs, rfl⟩
  | cons pv rest ih =>
    have hpv : pathItemOk pv.2 = true := h _ (List.mem_cons_self _ _)
    cases hs : pv.2 with
    | map entries =>
      simp only [pathItemOk, hs, List.all_eq_true] at hpv
      obtain ⟨r, hr, hk⟩ := findPrimaryTag_ok hpv
      obtain ⟨bs', hbs'⟩ := ih (fun e he => h e (List.mem_cons_of_mem _ he))
        (addToBucket bs (bucketKeyOf r) pv)
      exact ⟨bs', by simp [groupPathsAux, scanPath, hs, hr, hk, hbs']⟩
    | str s => simp [pathItemOk, hs] at hpv
    | int n => simp [pathItemOk, hs] at hpv
    | bool b => simp [pathItemOk, hs] at hpv
    | null => simp [pathItemOk, hs] at hpv
    | seq l => simp [pathItemOk, hs] at hpv

theorem emitDeclared_ok {tor : List Yaml} (h : ∀ t ∈ tor, hashable t = true)
    (bs : Buckets) (np : List (String × Yaml)) :
    ∃ np', emitDeclared bs tor np = .ok np' := by
  induction tor generalizing np with
  | nil => exact ⟨np, rfl⟩
  | cons t ts ih =>
    have ht : hashable t = true := h _ (List.mem_cons_self _ _)
    have hts := fun t ht' => h t (List.mem_cons_of_mem _ ht')
    cases hf : bucketFind bs t with
    | some kb => exact ⟨_, by simp only [emitDeclared, ht, if_pos rfl, hf]; exact (ih hts _).choose_spec⟩
    | none => exact ⟨_, by simp only [emitDeclared, ht, if_pos rfl, hf]; exact (ih hts np).choose_spec⟩

/-- **C9** — counterexample.  A `paths` mapping whose only PathItem has an
entry that *is* a mapping with a `tags` field holding the integer `5` makes the
function raise `TypeError` (Python: `5[0]`), so "no entry shape causes the
function to raise, whatever value the `tags` field holds" is false. -/
theorem C9_malformed_counterexample :
    reorganize_paths_by_tags
      [("paths", Yaml.map [("/a", Yaml.map [("get", Yaml.map [("tags", Yaml.int 5)])])])]
      = .error .typeError :=
  rfl

/-- **C9** (amended): entries that are not mappings containing a `tags` field
are skipped by the scan (folded into the no-primary-tag case), and the function
never fails when the declared tag names are hashable and every PathItem is a
mapping whose truthy `tags` fields are non-empty sequences with scalar heads;
but a truthy non-sequence `tags` value (or an unhashable first tag) does make
it raise, so the full success guarantee needs these shape conditions. -/
theorem C9_malformed_entries (doc : List (String × Yaml)) (tor : List Yaml)
    (items : List (String × Yaml))
    (h1 : tagOrderOf doc = .ok tor)
    (hh : tor.all hashable = true)
    (h2 : lookupStr doc "paths" = some (.map items))
    (h3 : items.all (fun pv => pathItemOk pv.2) = true) :
    (∃ out, reorganize_paths_by_tags doc = .ok out) ∧
    (∀ (m : String) (op : Yaml) (rest : List (String × Yaml)),
      isTaggedOpEntry op = false →
      findPrimaryTag ((m, op) :: rest) = findPrimaryTag rest) := by
  constructor
  · rw [List.all_eq_true] at hh h3
    obtain ⟨bs, hbs⟩ := groupPathsAux_ok (fun pv hpv => by simpa using h3 pv hpv) []
    obtain ⟨np1, hnp1⟩ := emitDeclared_ok (fun t ht => by simpa using hh t ht) bs
      (([]) : List (String × Yaml))
    exact ⟨emitUnlistedAux tor bs (emitUntagged bs np1),
      by simp [reorganize_paths_by_tags, h1, h2, groupPaths, hbs, hnp1]⟩
  · intro m op rest hop
    cases op with
    | map kvs =>
      cases hl : lookupStr kvs "tags" with
      | some tv => simp [isTaggedOpEntry, hl] at hop
      | none => simp [findPrimaryTag, hl]
    | str s => rfl
    | int n => rfl
    | bool b => rfl
    | null => rfl
    | seq l => rfl

/-- Witness for C9: a PathItem with an inert extension entry and a tagged
operation. -/
theorem C9_malformed_entries_witness :
    ∃ out, reorganize_paths_by_tags
      [("paths", Yaml.map
        [("/a", Yaml.map
          [("x-ext", Yaml.int 5),
           ("get", Yaml.map [("tags", Yaml.seq [Yaml.str "t"])])])])]
      = .ok out :=
  (C9_malformed_entries
    [("paths", Yaml.map
      [("/a", Yaml.map
        [("x-ext", Yaml.int 5),
         ("get", Yaml.map [("tags", Yaml.seq [Yaml.str "t"])])])])]
    []
    [("/a", Yaml.map
      [("x-ext", Yaml.int 5),
       ("get", Yaml.map [("tags", Yaml.seq [Yaml.str "t"])])])]
    rfl rfl rfl rfl).1

/-! ### Lookup lemmas -/

theorem mem_of_lookupStr {l : List (String × Yaml)} {k : String} {v : Yaml}
    (h : lookupStr l k = some v) : (k, v) ∈ l := by
  induction l with
  | nil => simp [lookupStr] at h
  | cons kv rest ih =>
    obtain ⟨k', v'⟩ := kv
    by_cases hk : k' = k
    · subst hk
      simp [lookupStr] at h
      simp [h]
    · simp only [lookupStr, if_neg hk] at h
      exact List.mem_cons_of_mem _ (ih h)

theorem lookupStr_eq_some_of_mem {l : List (String × Yaml)} {k : String} {v : Yaml}
    (hn : (l.map Prod.fst).Nodup) (h : (k, v) ∈ l) : lookupStr l k = some v := by
  induction l with
  | nil => cases h
  | cons kv rest ih =>
    obtain ⟨k', v'⟩ := kv
    rw [List.map_cons, List.nodup_cons] at hn
    rcases List.mem_cons.mp h with he | hm
    · rw [Prod.mk.injEq] at he
      simp [lookupStr, he.1.symm, he.2.symm]
    · have hk : k' ≠ k := by
        intro he
        exact hn.1 (he ▸ List.mem_map.mpr ⟨(k, v), hm, rfl⟩)
      simp only [lookupStr, if_neg hk]
      exact ih hn.2 hm

theorem value_eq_of_mem_nodup {l : List (String × Yaml)} {k : String} {v v' : Yaml}
    (hn : (l.map Prod.fst).Nodup) (h : (k, v) ∈ l) (h' : (k, v') ∈ l) : v = v' := by
  have h1 := lookupStr_eq_some_of_mem hn h
  have h2 := lookupStr_eq_some_of_mem hn h'
  rw [h1] at h2
  exact Option.some.inj h2

theorem lookupStr_eq_none {l : List (String × Yaml)} {k : String} :
    lookupStr l k = none ↔ k ∉ l.map Prod.fst := by
  induction l with
  | nil => simp [lookupStr]
  | cons kv rest ih =>
    obtain ⟨k', v'⟩ := kv
    by_cases hk : k' = k
    · subst hk
      simp [lookupStr]
    · simp [lookupStr, if_neg hk, ih, Ne.symm hk]

/-! ### The string order -/

theorem lexLe_total (a b : List Char) : lexLe a b = true ∨ lexLe b a = true := by
  induction a generalizing b with
  | nil => left; rfl
  | cons c cs ih =>
    cases b with
    | nil => right; rfl
    | cons d ds =>
      simp only [lexLe]
      rcases Nat.lt_trichotomy c.toNat d.toNat with h | h | h
      · left; simp [h]
      · have h1 : ¬ c.toNat < d.toNat := by omega
        have h2 : ¬ d.toNat < c.toNat := by omega
        simpa [h1, h2] using ih ds
      · right; simp [h, Nat.lt_asymm h]

theorem lexLe_trans {a b c : List Char} (h1 : lexLe a b = true) (h2 : lexLe b c = true) :
    lexLe a c = true := by
  induction a generalizing b c with
  | nil => rfl
  | cons x xs ih =>
    cases b with
    | nil => simp [lexLe] at h1
    | cons y ys =>
      cases c with
      | nil => simp [lexLe] at h2
      | cons z zs =>
        simp only [lexLe] at h1 h2 ⊢
        by_cases hxz : x.toNat < z.toNat
        · simp [hxz]
        · have hzx : ¬ z.toNat < x.toNat := by
            intro hzx
            by_cases hxy : x.toNat < y.toNat
            · by_cases hyz : y.toNat < z.toNat
              · omega
              · simp [if_neg (show ¬ y.toNat < z.toNat from hyz),
                  if_pos (show z.toNat < y.toNat by omega)] at h2
            · simp only [if_neg hxy] at h1
              by_cases hyx : y.toNat < x.toNat
              · simp [hyx] at h1
              · by_cases hyz : y.toNat < z.toNat
                · omega
                · simp [if_neg hyz, if_pos (show z.toNat < y.toNat by omega)] at h2
          have hxy : ¬ x.toNat < y.toNat := by
            intro hxy
            by_cases hyz : y.toNat < z.toNat
            · omega
            · simp [if_neg hyz, if_pos (show z.toNat < y.toNat by omega)] at h2
          have hyx : ¬ y.toNat < x.toNat := by
            intro hyx
            simp [if_neg hxy, if_pos hyx] at h1
          have hyz : ¬ y.toNat < z.toNat := by
            intro hyz
            omega
          have hzy : ¬ z.toNat < y.toNat := by
            intro hzy
            simp [if_neg hyz, if_pos hzy] at h2
          simp only [if_neg hxy, if_neg hyx] at h1
          simp only [if_neg hyz, if_neg hzy] at h2
          simp [if_neg hxz, if_neg hzx]
          exact ih h1 h2

theorem lexLe_antisymm {a b : List Char} (h1 : lexLe a b = true) (h2 : lexLe b a = true) :
    a = b := by
  induction a generalizing b with
  | nil =>
    cases b with
    | nil => rfl
    | cons d ds => simp [lexLe] at h2
  | cons c cs ih =>
    cases b with
    | nil => simp [lexLe] at h1
    | cons d ds =>
      simp only [lexLe] at h1 h2
      by_cases hcd : c.toNat < d.toNat
      · simp [if_neg (show ¬ d.toNat < c.toNat by omega), if_pos hcd] at h2
      · by_cases hdc : d.toNat < c.toNat
        · simp [if_neg hcd, if_pos hdc] at h1
        · simp only [if_neg hcd, if_neg hdc] at h1 h2
          have ht : c.toNat = d.toNat := by omega
          have hv : c.val = d.val := UInt32.ext ht
          have : c = d := Char.ext hv
          rw [this, ih h1 h2]

theorem strLe_total (a b : String) : strLe a b = true ∨ strLe b a = true :=
  lexLe_total a.data b.data

theorem strLe_trans {a b c : String} (h1 : strLe a b = true) (h2 : strLe b c = true) :
    strLe a c = true :=
  lexLe_trans h1 h2

theorem strLe_antisymm {a b : String} (h1 : strLe a b = true) (h2 : strLe b a = true) :
    a = b := by
  cases a with
  | mk da =>
    cases b with
    | mk db =>
      have : da = db := lexLe_antisymm h1 h2
      rw [this]

theorem strLe_refl (a : String) : strLe a a = true := by
  rcases strLe_total a a with h | h <;> exact h

/-! ### The sort -/

theorem ordInsert_perm (pv : String × Yaml) (b : Bucket) :
    (ordInsert pv b).Perm (pv :: b) := by
  induction b with
  | nil => exact List.Perm.refl _
  | cons qv rest ih =>
    simp only [ordInsert]
    by_cases h : strLe pv.1 qv.1 = true
    · rw [if_pos h]
    · rw [if_neg h]
      exact (ih.cons qv).trans (List.Perm.swap pv qv rest)

theorem sortByKey_perm (b : Bucket) : (sortByKey b).Perm b := by
  induction b with
  | nil => exact List.Perm.refl _
  | cons pv rest ih =>
    exact (ordInsert_perm pv (sortByKey rest)).trans (ih.cons pv)

theorem ordInsert_sorted {pv : String × Yaml} {b : Bucket}
    (hs : SortedKeys b) : SortedKeys (ordInsert pv b) := by
  induction b with
  | nil => simp [ordInsert, SortedKeys]
  | cons qv rest ih =>
    rw [SortedKeys, List.pairwise_cons] at hs
    simp only [ordInsert]
    by_cases h : strLe pv.1 qv.1 = true
    · rw [if_pos h]
      refine List.Pairwise.cons ?_ (List.Pairwise.cons hs.1 hs.2)
      intro x hx
      rcases List.mem_cons.mp hx with he | hm
      · rw [he]; exact h
      · exact strLe_trans h (hs.1 x hm)
    · rw [if_neg h]
      have hqp : strLe qv.1 pv.1 = true := by
        rcases strLe_total pv.1 qv.1 with h' | h'
        · exact absurd h' h
        · exact h'
      refine List.Pairwise.cons ?_ (ih hs.2)
      intro x hx
      have := (ordInsert_perm pv rest).mem_iff.mp hx
      rcases List.mem_cons.mp this with he | hm
      · rw [he]; exact hqp
      · exact hs.1 x hm

theorem sortByKey_sorted (b : Bucket) : SortedKeys (sortByKey b) := by
  induction b with
  | nil => simp [sortByKey, SortedKeys]
  | cons pv rest ih => exact ordInsert_sorted ih

theorem sortByKey_mem {pv : String × Yaml} {b : Bucket} :
    pv ∈ sortByKey b ↔ pv ∈ b :=
  (sortByKey_perm b).mem_iff

theorem sortByKey_keys_nodup {b : Bucket} (h : (b.map Prod.fst).Nodup) :
    ((sortByKey b).map Prod.fst).Nodup :=
  (((sortByKey_perm b).map Prod.fst).nodup_iff).mpr h

/-- Sorted lists with distinct keys are determined by their multiset of
pairs. -/
theorem sorted_nodup_perm_eq {A : Bucket} :
    ∀ {B : Bucket}, SortedKeys A → SortedKeys B →
      (A.map Prod.fst).Nodup → A.Perm B → A = B := by
  induction A with
  | nil =>
    intro B _ _ _ hp
    exact hp.nil_eq
  | cons x t ih =>
    intro B hs1 hs2 hn1 hp
    cases B with
    | nil => exact absurd hp (by simp)
    | cons y u =>
      rw [SortedKeys, List.pairwise_cons] at hs1 hs2
      rw [List.map_cons, List.nodup_cons] at hn1
      have hxy : x = y := by
        have hxB : x ∈ y :: u := hp.mem_iff.mp (List.mem_cons_self _ _)
        rcases List.mem_cons.mp hxB with he | hmx
        · exact he
        · have hyA : y ∈ x :: t := hp.mem_iff.mpr (List.mem_cons_self _ _)
          rcases List.mem_cons.mp hyA with he | hmy
          · exact he.symm
          · have h1 : strLe x.1 y.1 = true := hs1.1 y hmy
            have h2 : strLe y.1 x.1 = true := hs2.1 x hmx
            have hk : x.1 = y.1 := strLe_antisymm h1 h2
            exact absurd (by rw [hk]; exact List.mem_map.mpr ⟨y, hmy, rfl⟩) hn1.1
      subst hxy
      rw [ih hs1.2 hs2.2 hn1.2 hp.cons_inv]

/-- Two permuted buckets with no duplicate path strings have the same sort. -/
theorem sortByKey_eq_of_perm {b1 b2 : Bucket} (hp : b1.Perm b2)
    (hn : (b1.map Prod.fst).Nodup) : sortByKey b1 = sortByKey b2 :=
  sorted_nodup_perm_eq (sortByKey_sorted b1) (sortByKey_sorted b2)
    (sortByKey_keys_nodup hn)
    ((sortByKey_perm b1).trans (hp.trans (sortByKey_perm b2).symm))

/-! ### OrderedDict insertion -/

theorem odInsert_keys_of_mem {np : List (String × Yaml)} {k : String} {v : Yaml}
    (h : k ∈ np.map Prod.fst) :
    (odInsert np k v).map Prod.fst = np.map Prod.fst := by
  simp only [odInsert, if_pos h, List.map_map]
  apply List.map_congr_left
  intro kv _
  by_cases hc : kv.1 = k
  · simp [hc]
  · simp [hc]

theorem odInsert_of_not_mem {np : List (String × Yaml)} {k : String} {v : Yaml}
    (h : k ∉ np.map Prod.fst) :
    odInsert np k v = np ++ [(k, v)] := by
  simp [odInsert, h]

theorem odInsert_eq_self {np : List (String × Yaml)} {k : String} {v : Yaml}
    (hn : (np.map Prod.fst).Nodup) (h : (k, v) ∈ np) :
    odInsert np k v = np := by
  have hk : k ∈ np.map Prod.fst := List.mem_map.mpr ⟨(k, v), h, rfl⟩
  simp only [odInsert, if_pos hk]
  have hcong : ∀ kv ∈ np, (if kv.1 = k then (k, v) else kv) = kv := by
    intro kv hkv
    by_cases he : kv.1 = k
    · obtain ⟨k1, v1⟩ := kv
      simp only at he
      subst he
      have := value_eq_of_mem_nodup hn h hkv
      simp [this]
    · rw [if_neg he]
  rw [List.map_congr_left hcong]
  simp

theorem mem_odInsert_self (np : List (String × Yaml)) (k : String) (v : Yaml) :
    (k, v) ∈ odInsert np k v := by
  by_cases h : k ∈ np.map Prod.fst
  · simp only [odInsert, if_pos h]
    obtain ⟨kv, hkv, he⟩ := List.mem_map.mp h
    exact List.mem_map.mpr ⟨kv, hkv, by rw [if_pos he]⟩
  · simp [odInsert, if_neg h]

theorem mem_odInsert_of_ne {np : List (String × Yaml)} {pv : String × Yaml}
    {k : String} {v : Yaml} (h : pv ∈ np) (hne : pv.1 ≠ k) :
    pv ∈ odInsert np k v := by
  by_cases hm : k ∈ np.map Prod.fst
  · simp only [odInsert, if_pos hm]
    exact List.mem_map.mpr ⟨pv, h, by rw [if_neg hne]⟩
  · rw [odInsert_of_not_mem hm]
    exact List.mem_append_left _ h

theorem mem_odInsert {np : List (String × Yaml)} {pv : String × Yaml}
    {k : String} {v : Yaml} (h : pv ∈ odInsert np k v) : pv ∈ np ∨ pv = (k, v) := by
  by_cases hm : k ∈ np.map Prod.fst
  · simp only [odInsert, if_pos hm] at h
    obtain ⟨kv, hkv, he⟩ := List.mem_map.mp h
    by_cases hc : kv.1 = k
    · right; rw [← he, if_pos hc]
    · left; rw [← he, if_neg hc]; exact hkv
  · rw [odInsert_of_not_mem hm] at h
    rcases List.mem_append.mp h with h | h
    · left; exact h
    · right; simpa using h

theorem odInsert_nodup {np : List (String × Yaml)} {k : String} {v : Yaml}
    (hn : (np.map Prod.fst).Nodup) :
    ((odInsert np k v).map Prod.fst).Nodup := by
  by_cases hm : k ∈ np.map Prod.fst
  · rw [odInsert_keys_of_mem hm]; exact hn
  · rw [odInsert_of_not_mem hm]
    simp [List.nodup_append, hn, hm]

theorem odInsertAll_cons (np : List (String × Yaml)) (pv : String × Yaml) (l : Bucket) :
    odInsertAll np (pv :: l) = odInsertAll (odInsert np pv.1 pv.2) l := rfl

theorem odInsertAll_keys_prefix (l : Bucket) :
    ∀ np, ∃ s, (odInsertAll np l).map Prod.fst = np.map Prod.fst ++ s := by
  induction l with
  | nil => exact fun np => ⟨[], by simp [odInsertAll]⟩
  | cons pv rest ih =>
    intro np
    rw [odInsertAll_cons]
    obtain ⟨s, hs⟩ := ih (odInsert np pv.1 pv.2)
    by_cases hm : pv.1 ∈ np.map Prod.fst
    · rw [odInsert_keys_of_mem hm] at hs
      exact ⟨s, hs⟩
    · refine ⟨pv.1 :: s, ?_⟩
      rw [hs, odInsert_of_not_mem hm]
      simp

theorem odInsertAll_nodup (l : Bucket) :
    ∀ {np}, (np.map Prod.fst).Nodup → ((odInsertAll np l).map Prod.fst).Nodup := by
  induction l with
  | nil => intro np h; exact h
  | cons pv rest ih =>
    intro np h
    rw [odInsertAll_cons]
    exact ih (odInsert_nodup h)

theorem odInsertAll_fresh (l : Bucket) :
    ∀ np, (l.map Prod.fst).Nodup → (∀ x ∈ l.map Prod.fst, x ∉ np.map Prod.fst) →
      odInsertAll np l = np ++ l := by
  induction l with
  | nil => intro np _ _; simp [odInsertAll]
  | cons pv rest ih =>
    intro np hn hf
    rw [List.map_cons, List.nodup_cons] at hn
    rw [odInsertAll_cons, odInsert_of_not_mem (hf _ (by simp))]
    rw [ih (np ++ [pv]) hn.2 ?fresh]
    · simp
    case fresh =>
      intro x hx
      rw [List.map_append]
      intro hmem
      rcases List.mem_append.mp hmem with h | h
      · exact hf x (by simp [hx]) h
      · simp only [List.map_cons, List.map_nil, List.mem_singleton] at h
        exact hn.1 (h ▸ hx)

theorem odInsertAll_noop (l : Bucket) :
    ∀ {np}, (np.map Prod.fst).Nodup → (∀ pv ∈ l, pv ∈ np) → odInsertAll np l = np := by
  induction l with
  | nil => intro np _ _; rfl
  | cons pv rest ih =>
    intro np hn hl
    rw [odInsertAll_cons, odInsert_eq_self hn (hl pv (by simp))]
    exact ih hn (fun qv hqv => hl qv (by simp [hqv]))

theorem mem_odInsertAll_of_mem_np (l : Bucket) :
    ∀ {np} {pv : String × Yaml}, pv ∈ np → pv.1 ∉ l.map Prod.fst →
      pv ∈ odInsertAll np l := by
  induction l with
  | nil => intro np pv h _; exact h
  | cons qv rest ih =>
    intro np pv h hne
    simp only [List.map_cons, List.mem_cons] at hne
    push_neg at hne
    rw [odInsertAll_cons]
    exact ih (mem_odInsert_of_ne h hne.1) hne.2

theorem mem_odInsertAll_of_mem_l (l : Bucket) :
    ∀ {np} {pv : String × Yaml}, (l.map Prod.fst).Nodup → pv ∈ l →
      pv ∈ odInsertAll np l := by
  induction l with
  | nil => intro np pv _ h; cases h
  | cons qv rest ih =>
    intro np pv hn h
    rw [List.map_cons, List.nodup_cons] at hn
    rcases List.mem_cons.mp h with he | hm
    · subst he
      rw [odInsertAll_cons]
      exact mem_odInsertAll_of_mem_np rest (mem_odInsert_self np pv.1 pv.2) hn.1
    · rw [odInsertAll_cons]
      exact ih hn.2 hm

theorem mem_odInsertAll (l : Bucket) :
    ∀ {np} {pv : String × Yaml}, pv ∈ odInsertAll np l → pv ∈ np ∨ pv ∈ l := by
  induction l with
  | nil => intro np pv h; exact Or.inl h
  | cons qv rest ih =>
    intro np pv h
    rw [odInsertAll_cons] at h
    rcases ih h with h | h
    · rcases mem_odInsert h with h | h
      · exact Or.inl h
      · right
        rw [h]
        simp
    · right; exact List.mem_cons_of_mem _ h

/-! ### Buckets -/

theorem bool_eq_false {b : Bool} (h : b ≠ true) : b = false := by
  cases b
  · rfl
  · exact absurd rfl h

theorem bucketFind_none {bs : Buckets} {t : Yaml} :
    bucketFind bs t = none ↔ ∀ kb ∈ bs, pyEq kb.1 t = false := by
  simp [bucketFind, List.find?_eq_none]

theorem bucketFind_some {bs : Buckets} {t : Yaml} {kb : Yaml × Bucket}
    (h : bucketFind bs t = some kb) : kb ∈ bs ∧ pyEq kb.1 t = true := by
  rw [bucketFind] at h
  exact ⟨List.mem_of_find?_eq_some h, by simpa using List.find?_some h⟩

theorem bucketFind_cons_pos {k : Yaml} {b : Bucket} {rest : Buckets} {t : Yaml}
    (h : pyEq k t = true) : bucketFind ((k, b) :: rest) t = some (k, b) := by
  simp [bucketFind, List.find?_cons_of_pos, h]

theorem bucketFind_cons_neg {k : Yaml} {b : Bucket} {rest : Buckets} {t : Yaml}
    (h : pyEq k t = false) : bucketFind ((k, b) :: rest) t = bucketFind rest t := by
  simp [bucketFind, List.find?_cons_of_neg, h]

theorem bucketContents_of_find {bs : Buckets} {t : Yaml} {kb : Yaml × Bucket}
    (h : bucketFind bs t = some kb) : bucketContents bs t = kb.2 := by
  simp [bucketContents, h]

theorem bucketContents_of_none {bs : Buckets} {t : Yaml}
    (h : bucketFind bs t = none) : bucketContents bs t = [] := by
  simp [bucketContents, h]

theorem addToBucket_find_of_ne {bs : Buckets} {k t : Yaml} {pv : String × Yaml}
    (h : pyEq k t = false) :
    bucketFind (addToBucket bs k pv) t = bucketFind bs t := by
  induction bs with
  | nil =>
    simp only [addToBucket]
    rw [bucketFind_cons_neg h]
  | cons kb rest ih =>
    obtain ⟨k', b⟩ := kb
    by_cases hk : pyEq k' k = true
    · have hkt : pyEq k' t = false := by
        refine bool_eq_false (fun hc => ?_)
        have hkk' : pyEq k k' = true := by rw [pyEq_symm]; exact hk
        rw [pyEq_trans hkk' hc] at h
        cases h
      simp only [addToBucket, if_pos hk]
      rw [bucketFind_cons_neg hkt, bucketFind_cons_neg hkt]
    · simp only [addToBucket, if_neg hk]
      by_cases hkt : pyEq k' t = true
      · rw [bucketFind_cons_pos hkt, bucketFind_cons_pos hkt]
      · have hkt' : pyEq k' t = false := bool_eq_false hkt
        rw [bucketFind_cons_neg hkt', bucketFind_cons_neg hkt', ih]

theorem addToBucket_find_of_eq {bs : Buckets} {k t : Yaml} {pv : String × Yaml}
    (hkt : pyEq k t = true) :
    bucketFind (addToBucket bs k pv) t =
      some (match bucketFind bs t with
            | some (k0, b0) => (k0, b0 ++ [pv])
            | none => (k, [pv])) := by
  induction bs with
  | nil =>
    simp only [addToBucket]
    rw [bucketFind_cons_pos hkt]
    rfl
  | cons kb rest ih =>
    obtain ⟨k', b⟩ := kb
    by_cases hk : pyEq k' k = true
    · have hkt' : pyEq k' t = true := pyEq_trans hk hkt
      simp only [addToBucket, if_pos hk]
      rw [bucketFind_cons_pos hkt', bucketFind_cons_pos hkt']
    · have hk2 : pyEq k' t = false := by
        refine bool_eq_false (fun hc => ?_)
        have htk : pyEq t k = true := by rw [pyEq_symm]; exact hkt
        exact absurd (pyEq_trans hc htk) hk
      simp only [addToBucket, if_neg hk]
      rw [bucketFind_cons_neg hk2, bucketFind_cons_neg hk2, ih]

theorem addToBucket_keys_of_found {bs : Buckets} {k : Yaml} {pv : String × Yaml}
    (h : ∃ kb ∈ bs, pyEq kb.1 k = true) :
    (addToBucket bs k pv).map Prod.fst = bs.map Prod.fst := by
  induction bs with
  | nil => simp at h
  | cons kb rest ih =>
    obtain ⟨k', b⟩ := kb
    by_cases hk : pyEq k' k = true
    · simp [addToBucket, if_pos hk]
    · simp only [addToBucket, if_neg hk, List.map_cons]
      rcases h with ⟨kb0, hkb0, he⟩
      rcases List.mem_cons.mp hkb0 with he0 | hm0
      · rw [he0] at he; exact absurd he hk
      · rw [ih ⟨kb0, hm0, he⟩]

theorem addToBucket_keys_of_not_found {bs : Buckets} {k : Yaml} {pv : String × Yaml}
    (h : ∀ kb ∈ bs, pyEq kb.1 k = false) :
    (addToBucket bs k pv).map Prod.fst = bs.map Prod.fst ++ [k] := by
  induction bs with
  | nil => simp [addToBucket]
  | cons kb rest ih =>
    obtain ⟨k', b⟩ := kb
    have hk : pyEq k' k = false := h (k', b) (by simp)
    simp only [addToBucket, hk, Bool.false_eq_true, if_false, List.map_cons, List.cons_append,
      List.cons.injEq, true_and]
    exact ih (fun kb hkb => h kb (List.mem_cons_of_mem _ hkb))

theorem mem_addToBucket_keys {bs : Buckets} {k : Yaml} {pv : String × Yaml}
    {kb : Yaml × Bucket} (h : kb ∈ addToBucket bs k pv) :
    kb.1 ∈ bs.map Prod.fst ∨ kb.1 = k := by
  induction bs with
  | nil =>
    simp only [addToBucket, List.mem_singleton] at h
    right; rw [h]
  | cons kb' rest ih =>
    obtain ⟨k', b⟩ := kb'
    by_cases hk : pyEq k' k = true
    · simp only [addToBucket, if_pos hk] at h
      rcases List.mem_cons.mp h with he | hm
      · left; rw [he]; simp
      · left; simp only [List.map_cons, List.mem_cons]; right
        exact List.mem_map.mpr ⟨kb, hm, rfl⟩
    · simp only [addToBucket, if_neg hk] at h
      rcases List.mem_cons.mp h with he | hm
      · left; rw [he]; simp
      · rcases ih hm with h' | h'
        · left; simp only [List.map_cons, List.mem_cons]; right; exact h'
        · right; exact h'

theorem addToBucket_pyDistinct {bs : Buckets} {k : Yaml} {pv : String × Yaml}
    (hd : PyDistinct bs) : PyDistinct (addToBucket bs k pv) := by
  induction bs with
  | nil => simp [addToBucket, PyDistinct]
  | cons kb rest ih =>
    obtain ⟨k', b⟩ := kb
    rw [PyDistinct, List.pairwise_cons] at hd
    by_cases hk : pyEq k' k = true
    · simp only [addToBucket, if_pos hk]
      rw [PyDistinct, List.pairwise_cons]
      exact ⟨hd.1, hd.2⟩
    · simp only [addToBucket, if_neg hk]
      rw [PyDistinct, List.pairwise_cons]
      constructor
      · intro kb' hkb'
        rcases mem_addToBucket_keys hkb' with h' | h'
        · obtain ⟨kb0, hkb0, he⟩ := List.mem_map.mp h'
          have := hd.1 kb0 hkb0
          rw [he] at this
          exact this
        · rw [h']
          exact bool_eq_false hk
      · exact ih hd.2

theorem addToBucket_join_perm (bs : Buckets) (k : Yaml) (pv : String × Yaml) :
    (((addToBucket bs k pv).map Prod.snd).flatten).Perm
      (((bs.map Prod.snd).flatten) ++ [pv]) := by
  induction bs with
  | nil => simp [addToBucket]
  | cons kb rest ih =>
    obtain ⟨k', b⟩ := kb
    by_cases hk : pyEq k' k = true
    · simp only [addToBucket, if_pos hk, List.map_cons, List.flatten_cons]
      rw [List.append_assoc, List.append_assoc]
      exact List.Perm.append_left b (List.perm_append_comm)
    · simp only [addToBucket, if_neg hk, List.map_cons, List.flatten_cons]
      rw [List.append_assoc]
      exact List.Perm.append_left b ih

/-! ### The grouping loop -/

theorem groupPathsAux_step {bs : Buckets} {pv : String × Yaml}
    {l : List (String × Yaml)} {bs' : Buckets}
    (h : groupPathsAux bs (pv :: l) = .ok bs') :
    ∃ r, scanPath pv.2 = .ok r ∧ hashable (bucketKeyOf r) = true ∧
      groupPathsAux (addToBucket bs (bucketKeyOf r) pv) l = .ok bs' := by
  simp only [groupPathsAux] at h
  split at h
  · cases h
  · rename_i r hr
    split at h
    · rename_i hh
      exact ⟨r, hr, hh, h⟩
    · cases h

theorem groupPathsAux_scan_ok {l : List (String × Yaml)} :
    ∀ {bs bs'}, groupPathsAux bs l = .ok bs' →
      ∀ pv ∈ l, ∃ k, pathPrimary pv.2 = .ok k ∧ hashable k = true := by
  induction l with
  | nil => intro bs bs' _ pv hpv; cases hpv
  | cons qv rest ih =>
    intro bs bs' h pv hpv
    obtain ⟨r, hr, hh, h'⟩ := groupPathsAux_step h
    rcases List.mem_cons.mp hpv with he | hm
    · subst he
      exact ⟨bucketKeyOf r, by simp [pathPrimary, hr, Except.map], hh⟩
    · exact ih h' pv hm

theorem groupPathsAux_find {l : List (String × Yaml)} :
    ∀ {bs bs'}, groupPathsAux bs l = .ok bs' → ∀ t : Yaml,
      (∀ kb, bucketFind bs' t = some kb →
        kb.2 = bucketContents bs t ++ l.filter (fun pv => primB pv t)) ∧
      ((bucketFind bs' t).isSome = true ↔
        (bucketFind bs t).isSome = true ∨ l.filter (fun pv => primB pv t) ≠ []) := by
  induction l with
  | nil =>
    intro bs bs' h t
    injection h with h
    subst h
    constructor
    · intro kb hkb
      rw [bucketContents_of_find hkb]
      simp
    · simp
  | cons qv rest ih =>
    intro bs bs' h t
    obtain ⟨r, hr, hh, h'⟩ := groupPathsAux_step h
    have hPB : primB qv t = pyEq (bucketKeyOf r) t := by
      simp [primB, pathPrimary, hr, Except.map]
    by_cases hKt : pyEq (bucketKeyOf r) t = true
    · have hfilter : (qv :: rest).filter (fun pv => primB pv t)
          = qv :: rest.filter (fun pv => primB pv t) := by
        simp [List.filter_cons, hPB, hKt]
    -- the bucket hit by `t` gains `qv` at the end
      have hadd := @addToBucket_find_of_eq bs (bucketKeyOf r) t qv hKt
      have hcont2 : bucketContents (addToBucket bs (bucketKeyOf r) qv) t
          = bucketContents bs t ++ [qv] := by
        rw [bucketContents_of_find hadd]
        cases hf : bucketFind bs t with
        | some kb =>
          obtain ⟨k0, b0⟩ := kb
          rw [bucketContents_of_find hf]
        | none =>
          rw [bucketContents_of_none hf]
          rfl
      have hsome2 : (bucketFind (addToBucket bs (bucketKeyOf r) qv) t).isSome = true := by
        rw [hadd]; rfl
      obtain ⟨ihA, ihB⟩ := ih h' t
      constructor
      · intro kb hkb
        rw [ihA kb hkb, hcont2, hfilter]
        simp
      · have hbs' : (bucketFind bs' t).isSome = true := ihB.mpr (Or.inl hsome2)
        rw [hbs', hfilter]
        simp
    · have hKf : pyEq (bucketKeyOf r) t = false := bool_eq_false hKt
      have hfilter : (qv :: rest).filter (fun pv => primB pv t)
          = rest.filter (fun pv => primB pv t) := by
        simp [List.filter_cons, hPB, hKf]
      have hadd := @addToBucket_find_of_ne bs (bucketKeyOf r) t qv hKf
      obtain ⟨ihA, ihB⟩ := ih h' t
      constructor
      · intro kb hkb
        rw [ihA kb hkb, hfilter]
        congr 1
        simp [bucketContents, hadd]
      · rw [hfilter, ← hadd]
        exact ihB

theorem pyMem_iff {t : Yaml} {l : List Yaml} :
    pyMem t l = true ↔ ∃ x ∈ l, pyEq t x = true := by
  simp [pyMem, List.any_eq_true]

theorem pyMem_find_iff {bs : Buckets} {t : Yaml} :
    pyMem t (bs.map Prod.fst) = true ↔ (bucketFind bs t).isSome = true := by
  rw [pyMem_iff, bucketFind, List.find?_isSome]
  constructor
  · rintro ⟨x, hx, he⟩
    obtain ⟨kb, hkb, hkeq⟩ := List.mem_map.mp hx
    refine ⟨kb, hkb, ?_⟩
    show pyEq kb.1 t = true
    rw [pyEq_symm, hkeq]
    exact he
  · rintro ⟨kb, hkb, he⟩
    refine ⟨kb.1, List.mem_map.mpr ⟨kb, hkb, rfl⟩, ?_⟩
    rw [pyEq_symm]
    simpa using he

theorem pyDedupAcc_congr :
    ∀ (l : List Yaml) {seen1 seen2 : List Yaml},
      (∀ x, pyMem x seen1 = pyMem x seen2) →
      pyDedupAcc seen1 l = pyDedupAcc seen2 l := by
  intro l
  induction l with
  | nil => intro _ _ _; rfl
  | cons x xs ih =>
    intro seen1 seen2 h
    simp only [pyDedupAcc, h x]
    by_cases hm : pyMem x seen2 = true
    · rw [if_pos hm, if_pos hm]
      exact ih h
    · rw [if_neg hm, if_neg hm]
      congr 1
      apply ih
      intro y
      have hy := h y
      simp only [pyMem] at hy
      simp [pyMem, hy]

theorem groupPathsAux_keys {l : List (String × Yaml)} :
    ∀ {bs bs'}, groupPathsAux bs l = .ok bs' →
      bs'.map Prod.fst = bs.map Prod.fst
        ++ pyDedupAcc (bs.map Prod.fst)
            (l.filterMap (fun pv => (pathPrimary pv.2).toOption)) := by
  induction l with
  | nil =>
    intro bs bs' h
    injection h with h
    subst h
    simp [pyDedupAcc]
  | cons qv rest ih =>
    intro bs bs' h
    obtain ⟨r, hr, hh, h'⟩ := groupPathsAux_step h
    have hPP : pathPrimary qv.2 = .ok (bucketKeyOf r) := by
      simp [pathPrimary, hr, Except.map]
    have hfm : (qv :: rest).filterMap (fun pv => (pathPrimary pv.2).toOption)
        = bucketKeyOf r :: rest.filterMap (fun pv => (pathPrimary pv.2).toOption) := by
      simp [List.filterMap_cons, hPP, Except.toOption]
    rw [ih h', hfm]
    by_cases hm : pyMem (bucketKeyOf r) (bs.map Prod.fst) = true
    · have hfound : ∃ kb ∈ bs, pyEq kb.1 (bucketKeyOf r) = true := by
        obtain ⟨x, hx, he⟩ := pyMem_iff.mp hm
        obtain ⟨kb, hkb, hkeq⟩ := List.mem_map.mp hx
        refine ⟨kb, hkb, ?_⟩
        rw [pyEq_symm]
        rw [hkeq]
        exact he
      rw [addToBucket_keys_of_found hfound]
      simp only [pyDedupAcc, if_pos hm]
    · have hnot : ∀ kb ∈ bs, pyEq kb.1 (bucketKeyOf r) = false := by
        intro kb hkb
        refine bool_eq_false (fun hc => ?_)
        refine hm (pyMem_iff.mpr ⟨kb.1, List.mem_map.mpr ⟨kb, hkb, rfl⟩, ?_⟩)
        rw [pyEq_symm]
        exact hc
      rw [addToBucket_keys_of_not_found hnot]
      simp only [pyDedupAcc, if_neg hm]
      rw [List.append_assoc]
      congr 1
      rw [List.singleton_append]
      congr 1
      apply pyDedupAcc_congr
      intro y
      simp [pyMem, Bool.or_comm]

theorem groupPathsAux_pyDistinct {l : List (String × Yaml)} :
    ∀ {bs bs'}, groupPathsAux bs l = .ok bs' → PyDistinct bs → PyDistinct bs' := by
  induction l with
  | nil =>
    intro bs bs' h hd
    injection h with h
    subst h
    exact hd
  | cons qv rest ih =>
    intro bs bs' h hd
    obtain ⟨r, _, _, h'⟩ := groupPathsAux_step h
    exact ih h' (addToBucket_pyDistinct hd)

theorem groupPathsAux_keys_hashable {l : List (String × Yaml)} :
    ∀ {bs bs'}, groupPathsAux bs l = .ok bs' →
      (∀ kb ∈ bs, hashable kb.1 = true) → ∀ kb ∈ bs', hashable kb.1 = true := by
  induction l with
  | nil =>
    intro bs bs' h hk
    injection h with h
    subst h
    exact hk
  | cons qv rest ih =>
    intro bs bs' h hk
    obtain ⟨r, _, hh, h'⟩ := groupPathsAux_step h
    refine ih h' ?_
    intro kb hkb
    rcases mem_addToBucket_keys hkb with h1 | h1
    · obtain ⟨kb0, hkb0, he⟩ := List.mem_map.mp h1
      rw [← he]
      exact hk kb0 hkb0
    · rw [h1]
      exact hh

theorem groupPathsAux_join_perm {l : List (String × Yaml)} :
    ∀ {bs bs'}, groupPathsAux bs l = .ok bs' →
      ((bs'.map Prod.snd).flatten).Perm ((bs.map Prod.snd).flatten ++ l) := by
  induction l with
  | nil =>
    intro bs bs' h
    injection h with h
    subst h
    simp
  | cons qv rest ih =>
    intro bs bs' h
    obtain ⟨r, _, _, h'⟩ := groupPathsAux_step h
    refine (ih h').trans ?_
    have := (addToBucket_join_perm bs (bucketKeyOf r) qv).append_right rest
    refine this.trans ?_
    rw [List.append_assoc, List.singleton_append]

/-! ### Unfolding a successful run -/

theorem reorganize_ok_parts {doc out : List (String × Yaml)}
    (h : reorganize_paths_by_tags doc = .ok out) :
    ∃ tor items bs np1,
      tagOrderOf doc = .ok tor ∧
      lookupStr doc "paths" = some (.map items) ∧
      groupPaths items = .ok bs ∧
      emitDeclared bs tor [] = .ok np1 ∧
      out = emitUnlistedAux tor bs (emitUntagged bs np1) := by
  unfold reorganize_paths_by_tags at h
  split at h
  · cases h
  · rename_i tor htor
    split at h
    · cases h
    · rename_i pathsVal hpaths
      split at h
      · rename_i items
        split at h
        · cases h
        · rename_i bs hbs
          split at h
          · cases h
          · rename_i np1 hnp1
            injection h with h
            exact ⟨tor, items, bs, np1, htor, hpaths, hbs, hnp1, h.symm⟩
      · cases h

theorem emitDeclared_hashable {tor : List Yaml} :
    ∀ {bs np np'}, emitDeclared bs tor np = .ok np' → ∀ t ∈ tor, hashable t = true := by
  induction tor with
  | nil => intro bs np np' _ t ht; cases ht
  | cons t0 ts ih =>
    intro bs np np' h t ht
    simp only [emitDeclared] at h
    split at h
    · rename_i hh
      rcases List.mem_cons.mp ht with he | hm
      · subst he
        exact hh
      · split at h
        · exact ih h t hm
        · exact ih h t hm
    · cases h

theorem emitDeclared_eq_pure {tor : List Yaml} :
    ∀ {bs np np'}, emitDeclared bs tor np = .ok np' → np' = emitDeclaredP bs tor np := by
  induction tor with
  | nil =>
    intro bs np np' h
    injection h with h
    rw [← h]
    rfl
  | cons t0 ts ih =>
    intro bs np np' h
    simp only [emitDeclared] at h
    split at h
    · simp only [emitDeclaredP]
      split at h
      · exact ih h
      · exact ih h
    · cases h

/-! ### Stored keys -/

theorem entry_eq_of_pyEq {bs : Buckets} (hd : PyDistinct bs)
    {kb1 kb2 : Yaml × Bucket} (h1 : kb1 ∈ bs) (h2 : kb2 ∈ bs)
    (he : pyEq kb1.1 kb2.1 = true) : kb1 = kb2 := by
  by_contra hne
  have hsym : Symmetric (fun a b : Yaml × Bucket => pyEq a.1 b.1 = false) := by
    intro a b hab
    rw [pyEq_symm]
    exact hab
  have := List.Pairwise.forall hsym hd h1 h2 hne
  rw [this] at he
  cases he

theorem bucketFind_self {bs : Buckets} (hd : PyDistinct bs) {kb : Yaml × Bucket}
    (hkb : kb ∈ bs) (hh : hashable kb.1 = true) : bucketFind bs kb.1 = some kb := by
  induction bs with
  | nil => cases hkb
  | cons kb' rest ih =>
    rw [PyDistinct, List.pairwise_cons] at hd
    rcases List.mem_cons.mp hkb with he | hm
    · subst he
      obtain ⟨k, b⟩ := kb
      exact bucketFind_cons_pos (pyEq_refl hh)
    · obtain ⟨k', b'⟩ := kb'
      rw [bucketFind_cons_neg (hd.1 kb hm)]
      exact ih hd.2 hm

theorem pyMem_str_iff {s : String} {l : List Yaml} :
    pyMem (.str s) l = true ↔ (Yaml.str s) ∈ l := by
  rw [pyMem_iff]
  constructor
  · rintro ⟨x, hx, he⟩
    rwa [pyEq_str_iff'.mp he] at hx
  · intro hx
    exact ⟨.str s, hx, pyEq_refl rfl⟩

/-! ### Dedup algebra -/

theorem pyMem_pyDedupAcc {x : Yaml} :
    ∀ (l : List Yaml) (seen : List Yaml),
      pyMem x (pyDedupAcc seen l) = (pyMem x l && !(pyMem x seen)) := by
  intro l
  induction l with
  | nil => intro seen; simp [pyDedupAcc, pyMem]
  | cons y ys ih =>
    intro seen
    simp only [pyDedupAcc]
    have hcons : pyMem x (y :: ys) = (pyEq x y || pyMem x ys) := by simp [pyMem]
    by_cases hm : pyMem y seen = true
    · rw [if_pos hm, ih seen, hcons]
      by_cases hxy : pyEq x y = true
      · have hxseen : pyMem x seen = true := by
          obtain ⟨z, hz, hez⟩ := pyMem_iff.mp hm
          exact pyMem_iff.mpr ⟨z, hz, pyEq_trans hxy hez⟩
        rw [hxy, hxseen]
        simp
      · rw [bool_eq_false hxy]
        simp
    · rw [if_neg hm]
      have hstep : pyMem x (y :: pyDedupAcc (y :: seen) ys)
          = (pyEq x y || pyMem x (pyDedupAcc (y :: seen) ys)) := by simp [pyMem]
      rw [hstep, ih (y :: seen), hcons]
      have hys : pyMem x (y :: seen) = (pyEq x y || pyMem x seen) := by simp [pyMem]
      rw [hys]
      by_cases hxy : pyEq x y = true
      · have hxs : pyMem x seen = false := by
          refine bool_eq_false (fun hc => ?_)
          obtain ⟨z, hz, hez⟩ := pyMem_iff.mp hc
          have hyx : pyEq y x = true := by rw [pyEq_symm]; exact hxy
          exact hm (pyMem_iff.mpr ⟨z, hz, pyEq_trans hyx hez⟩)
        rw [hxy, hxs]
        simp
      · rw [bool_eq_false hxy]
        simp

theorem pyDedupAcc_append (l1 : List Yaml) :
    ∀ (l2 seen : List Yaml),
      pyDedupAcc seen (l1 ++ l2)
        = pyDedupAcc seen l1 ++ pyDedupAcc (seen ++ l1) l2 := by
  induction l1 with
  | nil =>
    intro l2 seen
    simp only [List.nil_append, pyDedupAcc, List.append_nil]
  | cons x xs ih =>
    intro l2 seen
    simp only [List.cons_append, pyDedupAcc, List.append_eq]
    by_cases hm : pyMem x seen = true
    · rw [if_pos hm, if_pos hm, ih]
      congr 1
      apply pyDedupAcc_congr
      intro y
      by_cases hxy : pyEq y x = true
      · have hys : pyMem y seen = true := by
          obtain ⟨z, hz, hez⟩ := pyMem_iff.mp hm
          exact pyMem_iff.mpr ⟨z, hz, pyEq_trans hxy hez⟩
        have hys' : (seen.any fun z => pyEq y z) = true := by simpa [pyMem] using hys
        simp [pyMem, hys']
      · have hxy' : pyEq y x = false := bool_eq_false hxy
        simp [pyMem, hxy']
    · rw [if_neg hm, if_neg hm, ih]
      simp only [List.cons_append, List.cons.injEq, true_and]
      congr 1
      apply pyDedupAcc_congr
      intro y
      simp [pyMem, Bool.or_comm, Bool.or_assoc, Bool.or_left_comm]

theorem pyDedupAcc_subset {x : Yaml} :
    ∀ {l seen : List Yaml}, x ∈ pyDedupAcc seen l → x ∈ l := by
  intro l
  induction l with
  | nil => intro seen h; cases h
  | cons y ys ih =>
    intro seen h
    simp only [pyDedupAcc] at h
    split at h
    · exact List.mem_cons_of_mem _ (ih h)
    · rcases List.mem_cons.mp h with he | hm
      · rw [he]; simp
      · exact List.mem_cons_of_mem _ (ih hm)

theorem pyDedupAcc_not_seen {x : Yaml} :
    ∀ {l seen : List Yaml}, x ∈ pyDedupAcc seen l → pyMem x seen = false := by
  intro l
  induction l with
  | nil => intro seen h; cases h
  | cons y ys ih =>
    intro seen h
    simp only [pyDedupAcc] at h
    split at h
    · exact ih h
    · rcases List.mem_cons.mp h with he | hm
      · subst he
        rename_i hm'
        exact bool_eq_false hm'
      · have := ih hm
        simp only [pyMem, List.any_cons, Bool.or_eq_false_iff] at this
        exact this.2

theorem pyDedupAcc_pairwise :
    ∀ (l seen : List Yaml),
      (pyDedupAcc seen l).Pairwise (fun a b => pyEq a b = false) := by
  intro l
  induction l with
  | nil => intro seen; exact List.Pairwise.nil
  | cons y ys ih =>
    intro seen
    simp only [pyDedupAcc]
    split
    · exact ih seen
    · refine List.Pairwise.cons ?_ (ih (y :: seen))
      intro b hb
      have := pyDedupAcc_not_seen hb
      simp only [pyMem, List.any_cons, Bool.or_eq_false_iff] at this
      rw [pyEq_symm]
      exact this.1

/-! ### Bucket contents as filters of the input -/

theorem bs_pyDistinct {items : List (String × Yaml)} {bs : Buckets}
    (hgp : groupPaths items = .ok bs) : PyDistinct bs :=
  groupPathsAux_pyDistinct hgp (by simp [PyDistinct])

theorem bs_keys_hashable {items : List (String × Yaml)} {bs : Buckets}
    (hgp : groupPaths items = .ok bs) : ∀ kb ∈ bs, hashable kb.1 = true :=
  groupPathsAux_keys_hashable hgp (by intro kb h; cases h)

theorem bs_find_contents {items : List (String × Yaml)} {bs : Buckets}
    (hgp : groupPaths items = .ok bs) {t : Yaml} {kb : Yaml × Bucket}
    (h : bucketFind bs t = some kb) :
    kb.2 = items.filter (fun pv => primB pv t) := by
  have := (groupPathsAux_find hgp t).1 kb h
  simpa [bucketContents, bucketFind] using this

theorem bs_find_isSome {items : List (String × Yaml)} {bs : Buckets}
    (hgp : groupPaths items = .ok bs) (t : Yaml) :
    (bucketFind bs t).isSome = true ↔ items.filter (fun pv => primB pv t) ≠ [] := by
  have := (groupPathsAux_find hgp t).2
  simpa [bucketContents, bucketFind] using this

theorem stored_contents {items : List (String × Yaml)} {bs : Buckets}
    (hgp : groupPaths items = .ok bs) {k : Yaml} {b : Bucket}
    (hkb : (k, b) ∈ bs) :
    bucketFind bs k = some (k, b) ∧ b = items.filter (fun pv => primB pv k) := by
  have hf := bucketFind_self (bs_pyDistinct hgp) hkb (bs_keys_hashable hgp _ hkb)
  exact ⟨hf, bs_find_contents hgp hf⟩

theorem stored_contents_filter {items : List (String × Yaml)} {bs : Buckets}
    (hgp : groupPaths items = .ok bs) {k : Yaml} {b : Bucket}
    (hkb : (k, b) ∈ bs) :
    bucketContents bs k = items.filter (fun pv => primB pv k) := by
  obtain ⟨hf, hb⟩ := stored_contents hgp hkb
  rw [bucketContents_of_find hf]
  exact hb

theorem filter_keys_nodup {items : List (String × Yaml)}
    (hnd : (items.map Prod.fst).Nodup) (q : (String × Yaml) → Bool) :
    ((items.filter q).map Prod.fst).Nodup :=
  List.Nodup.sublist (List.Sublist.map Prod.fst (List.filter_sublist items)) hnd

theorem filter_keys_disjoint {items : List (String × Yaml)}
    (hnd : (items.map Prod.fst).Nodup) {t1 t2 : Yaml} (hne : pyEq t1 t2 = false) :
    ∀ p, p ∈ (items.filter (fun pv => primB pv t1)).map Prod.fst →
      p ∉ (items.filter (fun pv => primB pv t2)).map Prod.fst := by
  intro p h1 h2
  obtain ⟨pv1, hpv1, he1⟩ := List.mem_map.mp h1
  obtain ⟨pv2, hpv2, he2⟩ := List.mem_map.mp h2
  rw [List.mem_filter] at hpv1 hpv2
  obtain ⟨p1, s1⟩ := pv1
  obtain ⟨p2, s2⟩ := pv2
  simp only at he1 he2
  subst he1
  subst he2
  have hs : s1 = s2 := value_eq_of_mem_nodup hnd hpv1.1 hpv2.1
  subst hs
  have hb1 := hpv1.2
  have hb2 := hpv2.2
  unfold primB at hb1 hb2
  cases hpp : pathPrimary s1 with
  | ok K =>
    rw [hpp] at hb1 hb2
    have h1K : pyEq t1 K = true := by rw [pyEq_symm]; exact hb1
    rw [pyEq_trans h1K hb2] at hne
    cases hne
  | error e =>
    rw [hpp] at hb1
    cases hb1

/-! ### Segments -/

theorem segs_append (bs : Buckets) (ks1 ks2 : List Yaml) :
    segs bs (ks1 ++ ks2) = segs bs ks1 ++ segs bs ks2 := by
  simp [segs]

theorem segs_cons (bs : Buckets) (k : Yaml) (ks : List Yaml) :
    segs bs (k :: ks) = sortByKey (bucketContents bs k) ++ segs bs ks := by
  simp [segs]

theorem mem_segs {bs : Buckets} {pv : String × Yaml} {ks : List Yaml} :
    pv ∈ segs bs ks ↔ ∃ k ∈ ks, pv ∈ sortByKey (bucketContents bs k) := by
  simp [segs, List.mem_flatten]

theorem mem_segs_keys {bs : Buckets} {p : String} {ks : List Yaml} :
    p ∈ (segs bs ks).map Prod.fst
      ↔ ∃ k ∈ ks, p ∈ (sortByKey (bucketContents bs k)).map Prod.fst := by
  constructor
  · intro h
    obtain ⟨pv, hpv, he⟩ := List.mem_map.mp h
    obtain ⟨k, hk, hm⟩ := mem_segs.mp hpv
    exact ⟨k, hk, List.mem_map.mpr ⟨pv, hm, he⟩⟩
  · rintro ⟨k, hk, h⟩
    obtain ⟨pv, hpv, he⟩ := List.mem_map.mp h
    exact List.mem_map.mpr ⟨pv, mem_segs.mpr ⟨k, hk, hpv⟩, he⟩

theorem sort_keys_mem {b : Bucket} {p : String} :
    p ∈ (sortByKey b).map Prod.fst ↔ p ∈ b.map Prod.fst :=
  ((sortByKey_perm b).map Prod.fst).mem_iff

theorem segs_keys_nodup {items : List (String × Yaml)} {bs : Buckets}
    (hgp : groupPaths items = .ok bs) (hnd : (items.map Prod.fst).Nodup) :
    ∀ {ks : List Yaml}, (∀ k ∈ ks, ∃ b, (k, b) ∈ bs) →
      ks.Pairwise (fun a b => pyEq a b = false) →
      ((segs bs ks).map Prod.fst).Nodup := by
  intro ks
  induction ks with
  | nil => intro _ _; simp [segs]
  | cons k ks' ih =>
    intro hmem hpw
    rw [List.pairwise_cons] at hpw
    obtain ⟨b, hb⟩ := hmem k (by simp)
    rw [segs_cons, List.map_append]
    rw [List.nodup_append]
    refine ⟨?_, ih (fun k' hk' => hmem k' (by simp [hk'])) hpw.2, ?_⟩
    · rw [stored_contents_filter hgp hb]
      exact sortByKey_keys_nodup (filter_keys_nodup hnd _)
    · intro p hp hp'
      obtain ⟨k', hk', hm'⟩ := mem_segs_keys.mp hp'
      obtain ⟨b', hb'⟩ := hmem k' (by simp [hk'])
      rw [stored_contents_filter hgp hb, sort_keys_mem] at hp
      rw [stored_contents_filter hgp hb', sort_keys_mem] at hm'
      exact filter_keys_disjoint hnd (hpw.1 k' hk') p hp hm'

/-! ### Emission steps -/

theorem emitBucket_noop_seg {items : List (String × Yaml)} {bs : Buckets}
    (hgp : groupPaths items = .ok bs) (hnd : (items.map Prod.fst).Nodup)
    {ks : List Yaml} (hmem : ∀ k ∈ ks, ∃ b, (k, b) ∈ bs)
    (hpw : ks.Pairwise (fun a b => pyEq a b = false))
    {k0 : Yaml} {b0 : Bucket} (hkb : (k0, b0) ∈ bs) (hk0 : k0 ∈ ks) :
    emitBucket (segs bs ks) b0 = segs bs ks := by
  apply odInsertAll_noop
  · exact segs_keys_nodup hgp hnd hmem hpw
  · intro pv hpv
    rw [sortByKey_mem] at hpv
    have hc : bucketContents bs k0 = b0 :=
      bucketContents_of_find (stored_contents hgp hkb).1
    exact mem_segs.mpr ⟨k0, hk0, sortByKey_mem.mpr (hc ▸ hpv)⟩

theorem emitBucket_fresh_seg {items : List (String × Yaml)} {bs : Buckets}
    (hgp : groupPaths items = .ok bs) (hnd : (items.map Prod.fst).Nodup)
    {ks : List Yaml} (hmem : ∀ k ∈ ks, ∃ b, (k, b) ∈ bs)
    {k0 : Yaml} {b0 : Bucket} (hkb : (k0, b0) ∈ bs)
    (hfr : ∀ k' ∈ ks, pyEq k' k0 = false) :
    emitBucket (segs bs ks) b0 = segs bs (ks ++ [k0]) := by
  have hb0 : b0 = items.filter (fun pv => primB pv k0) := (stored_contents hgp hkb).2
  have hc : bucketContents bs k0 = b0 :=
    bucketContents_of_find (stored_contents hgp hkb).1
  rw [emitBucket, odInsertAll_fresh]
  · rw [segs_append, segs_cons, hc]
    simp [segs]
  · apply sortByKey_keys_nodup
    rw [hb0]
    exact filter_keys_nodup hnd _
  · intro x hx hx'
    rw [sort_keys_mem, hb0] at hx
    obtain ⟨k', hk', hm'⟩ := mem_segs_keys.mp hx'
    obtain ⟨b', hb'⟩ := hmem k' hk'
    rw [stored_contents_filter hgp hb', sort_keys_mem] at hm'
    exact filter_keys_disjoint hnd (hfr k' hk') x hm' hx

/-! ### The three emission loops over segments -/

theorem emitDeclaredP_segs {items : List (String × Yaml)} {bs : Buckets}
    (hgp : groupPaths items = .ok bs) (hnd : (items.map Prod.fst).Nodup) :
    ∀ (ts : List Yaml) (ks : List Yaml),
      (∀ k ∈ ks, ∃ b, (k, b) ∈ bs) →
      ks.Pairwise (fun a b => pyEq a b = false) →
      emitDeclaredP bs ts (segs bs ks)
        = segs bs (ks ++ pyDedupAcc ks (declaredKeysRaw bs ts)) := by
  intro ts
  induction ts with
  | nil => intro ks _ _; simp [emitDeclaredP, declaredKeysRaw, pyDedupAcc]
  | cons t ts' ih =>
    intro ks hmem hpw
    simp only [emitDeclaredP]
    cases hf : bucketFind bs t with
    | none =>
      dsimp only
      rw [ih ks hmem hpw]
      have hraw : declaredKeysRaw bs (t :: ts') = declaredKeysRaw bs ts' := by
        simp [declaredKeysRaw, List.filterMap_cons, hf]
      rw [hraw]
    | some kb =>
      obtain ⟨k0, b0⟩ := kb
      have hkb : (k0, b0) ∈ bs := (bucketFind_some hf).1
      have hraw : declaredKeysRaw bs (t :: ts') = k0 :: declaredKeysRaw bs ts' := by
        simp [declaredKeysRaw, List.filterMap_cons, hf]
      rw [hraw]
      dsimp only
      by_cases hm : pyMem k0 ks = true
      · have hk0 : k0 ∈ ks := by
          obtain ⟨k', hk', he⟩ := pyMem_iff.mp hm
          obtain ⟨b', hb'⟩ := hmem k' hk'
          have hee : (k0, b0) = (k', b') :=
            entry_eq_of_pyEq (bs_pyDistinct hgp) hkb hb' he
          rw [Prod.mk.injEq] at hee
          rw [hee.1]
          exact hk'
        rw [emitBucket_noop_seg hgp hnd hmem hpw hkb hk0, ih ks hmem hpw]
        simp only [pyDedupAcc, if_pos hm]
      · have hfr : ∀ k' ∈ ks, pyEq k' k0 = false := by
          intro k' hk'
          refine bool_eq_false (fun hc => ?_)
          exact hm (pyMem_iff.mpr ⟨k', hk', by rw [pyEq_symm]; exact hc⟩)
        rw [emitBucket_fresh_seg hgp hnd hmem hkb hfr]
        rw [ih (ks ++ [k0]) ?mem ?pw]
        · simp only [pyDedupAcc, if_neg hm]
          congr 1
          rw [List.append_assoc, List.singleton_append]
          congr 2
          apply pyDedupAcc_congr
          intro y
          simp [pyMem, Bool.or_comm]
        case mem =>
          intro k hk
          rcases List.mem_append.mp hk with h' | h'
          · exact hmem k h'
          · rw [List.mem_singleton.mp h']
            exact ⟨b0, hkb⟩
        case pw =>
          rw [List.pairwise_append]
          refine ⟨hpw, List.pairwise_singleton _ _, ?_⟩
          intro k' hk' k'' hk''
          rw [List.mem_singleton.mp hk'']
          exact hfr k' hk'

theorem emitUntagged_segs {items : List (String × Yaml)} {bs : Buckets}
    (hgp : groupPaths items = .ok bs) (hnd : (items.map Prod.fst).Nodup)
    {ks : List Yaml} (hmem : ∀ k ∈ ks, ∃ b, (k, b) ∈ bs)
    (hpw : ks.Pairwise (fun a b => pyEq a b = false)) :
    emitUntagged bs (segs bs ks)
      = segs bs (ks ++ (match bucketFind bs (.str "untagged") with
          | some kb => if pyMem kb.1 ks then [] else [kb.1]
          | none => [])) := by
  unfold emitUntagged
  cases hf : bucketFind bs (.str "untagged") with
  | none => simp
  | some kb =>
    obtain ⟨k0, b0⟩ := kb
    have hkb : (k0, b0) ∈ bs := (bucketFind_some hf).1
    dsimp only
    by_cases hm : pyMem k0 ks = true
    · rw [if_pos hm]
      have hk0 : k0 ∈ ks := by
        obtain ⟨k', hk', he⟩ := pyMem_iff.mp hm
        obtain ⟨b', hb'⟩ := hmem k' hk'
        have hee : (k0, b0) = (k', b') :=
          entry_eq_of_pyEq (bs_pyDistinct hgp) hkb hb' he
        rw [Prod.mk.injEq] at hee
        rw [hee.1]
        exact hk'
      rw [emitBucket_noop_seg hgp hnd hmem hpw hkb hk0]
      simp
    · rw [if_neg hm]
      have hfr : ∀ k' ∈ ks, pyEq k' k0 = false := by
        intro k' hk'
        refine bool_eq_false (fun hc => ?_)
        exact hm (pyMem_iff.mpr ⟨k', hk', by rw [pyEq_symm]; exact hc⟩)
      exact emitBucket_fresh_seg hgp hnd hmem hkb hfr

theorem emitUnlistedAux_segs {items : List (String × Yaml)} {bs : Buckets}
    (hgp : groupPaths items = .ok bs) (hnd : (items.map Prod.fst).Nodup)
    (tor : List Yaml) :
    ∀ (bsIter : Buckets) (ks : List Yaml),
      (∀ kb ∈ bsIter, kb ∈ bs) →
      PyDistinct bsIter →
      (∀ k ∈ ks, ∃ b, (k, b) ∈ bs) →
      ks.Pairwise (fun a b => pyEq a b = false) →
      (∀ kb ∈ bsIter, (pyMem kb.1 tor || pyEq kb.1 (.str "untagged")) = false →
        ∀ k' ∈ ks, pyEq k' kb.1 = false) →
      emitUnlistedAux tor bsIter (segs bs ks)
        = segs bs (ks ++ (bsIter.map Prod.fst).filter
            (fun k => !(pyMem k tor) && !(pyEq k (.str "untagged")))) := by
  intro bsIter
  induction bsIter with
  | nil => intro ks _ _ _ _ _; simp [emitUnlistedAux]
  | cons kb rest ih =>
    intro ks hsub hipw hmem hpw hfr
    rw [PyDistinct, List.pairwise_cons] at hipw
    simp only [emitUnlistedAux]
    by_cases hskip : (pyMem kb.1 tor || pyEq kb.1 (.str "untagged")) = true
    · rw [if_pos hskip]
      rw [ih ks (fun kb' h => hsub kb' (by simp [h])) hipw.2 hmem hpw
        (fun kb' h hc => hfr kb' (by simp [h]) hc)]
      have hc : (!(pyMem kb.1 tor) && !(pyEq kb.1 (.str "untagged"))) = false := by
        rw [← Bool.not_or, hskip]
        rfl
      simp only [List.map_cons, List.filter_cons, hc]
      rfl
    · have hskip' : (pyMem kb.1 tor || pyEq kb.1 (.str "untagged")) = false :=
        bool_eq_false hskip
      rw [if_neg hskip]
      have hc : (!(pyMem kb.1 tor) && !(pyEq kb.1 (.str "untagged"))) = true := by
        rw [← Bool.not_or, hskip']
        rfl
      obtain ⟨k0, b0⟩ := kb
      have hkb : (k0, b0) ∈ bs := hsub (k0, b0) (by simp)
      have hfr0 : ∀ k' ∈ ks, pyEq k' k0 = false :=
        hfr (k0, b0) (by simp) hskip'
      rw [emitBucket_fresh_seg hgp hnd hmem hkb hfr0]
      rw [ih (ks ++ [k0]) (fun kb' h => hsub kb' (by simp [h])) hipw.2 ?mem ?pw ?fr]
      · simp only [List.map_cons, List.filter_cons, hc, if_true]
        rw [List.append_assoc, List.singleton_append]
      case mem =>
        intro k hk
        rcases List.mem_append.mp hk with h' | h'
        · exact hmem k h'
        · rw [List.mem_singleton.mp h']
          exact ⟨b0, hkb⟩
      case pw =>
        rw [List.pairwise_append]
        refine ⟨hpw, List.pairwise_singleton _ _, ?_⟩
        intro k' hk' k'' hk''
        rw [List.mem_singleton.mp hk'']
        exact hfr0 k' hk'
      case fr =>
        intro kb' h' hc' k' hk'
        rcases List.mem_append.mp hk' with h'' | h''
        · exact hfr kb' (by simp [h']) hc' k' h''
        · rw [List.mem_singleton.mp h'']
          exact hipw.1 kb' h'

/-! ### The declared keys -/

theorem pyMem_false_iff {t : Yaml} {l : List Yaml} :
    pyMem t l = false ↔ ∀ x ∈ l, pyEq t x = false := by
  constructor
  · intro h x hx
    refine bool_eq_false (fun hc => ?_)
    rw [pyMem_iff.mpr ⟨x, hx, hc⟩] at h
    cases h
  · intro h
    refine bool_eq_false (fun hc => ?_)
    obtain ⟨x, hx, he⟩ := pyMem_iff.mp hc
    rw [h x hx] at he
    cases he

theorem declaredKeysRaw_cons_none {bs : Buckets} {t : Yaml} {ts : List Yaml}
    (hft : bucketFind bs t = none) :
    declaredKeysRaw bs (t :: ts) = declaredKeysRaw bs ts := by
  simp [declaredKeysRaw, List.filterMap_cons, hft]

theorem declaredKeysRaw_cons_some {bs : Buckets} {t : Yaml} {ts : List Yaml}
    {kb : Yaml × Bucket} (hft : bucketFind bs t = some kb) :
    declaredKeysRaw bs (t :: ts) = kb.1 :: declaredKeysRaw bs ts := by
  simp [declaredKeysRaw, List.filterMap_cons, hft]

theorem declaredKeysRaw_mem {bs : Buckets} {tor : List Yaml} :
    ∀ k ∈ declaredKeysRaw bs tor, ∃ b, (k, b) ∈ bs := by
  intro k hk
  obtain ⟨t, _, he⟩ := List.mem_filterMap.mp hk
  cases hf : bucketFind bs t with
  | none => rw [hf] at he; cases he
  | some kb =>
    rw [hf] at he
    injection he with he
    refine ⟨kb.2, ?_⟩
    rw [← he]
    exact (bucketFind_some hf).1

theorem declaredKeysRaw_pyMem {bs : Buckets} {tor : List Yaml} :
    ∀ k ∈ declaredKeysRaw bs tor, pyMem k tor = true := by
  intro k hk
  obtain ⟨t, ht, he⟩ := List.mem_filterMap.mp hk
  cases hf : bucketFind bs t with
  | none => rw [hf] at he; cases he
  | some kb =>
    rw [hf] at he
    injection he with he
    refine pyMem_iff.mpr ⟨t, ht, ?_⟩
    rw [← he]
    exact (bucketFind_some hf).2

theorem declaredKeys_mem {bs : Buckets} {tor : List Yaml} :
    ∀ k ∈ declaredKeys bs tor, ∃ b, (k, b) ∈ bs :=
  fun k hk => declaredKeysRaw_mem k (pyDedupAcc_subset hk)

theorem declaredKeys_pyMem {bs : Buckets} {tor : List Yaml} :
    ∀ k ∈ declaredKeys bs tor, pyMem k tor = true :=
  fun k hk => declaredKeysRaw_pyMem k (pyDedupAcc_subset hk)

theorem declaredKeys_pairwise (bs : Buckets) (tor : List Yaml) :
    (declaredKeys bs tor).Pairwise (fun a b => pyEq a b = false) :=
  pyDedupAcc_pairwise _ _

theorem pyMem_untagged_raw {bs : Buckets} {kb : Yaml × Bucket}
    (hf : bucketFind bs (.str "untagged") = some kb) :
    ∀ tor : List Yaml,
      pyMem (.str "untagged") (declaredKeysRaw bs tor)
        = pyMem (.str "untagged") tor := by
  intro tor
  induction tor with
  | nil => rfl
  | cons t ts ihr =>
    cases hft : bucketFind bs t with
    | none =>
      rw [declaredKeysRaw_cons_none hft, ihr]
      have hne : pyEq (Yaml.str "untagged") t = false := by
        refine bool_eq_false (fun hc => ?_)
        rw [pyEq_str_iff'.mp hc] at hft
        rw [hf] at hft
        cases hft
      simp [pyMem, hne]
    | some kb' =>
      rw [declaredKeysRaw_cons_some hft]
      have hEq : pyEq (Yaml.str "untagged") kb'.1 = pyEq (Yaml.str "untagged") t := by
        by_cases h1 : pyEq (.str "untagged") kb'.1 = true
        · have hk : kb'.1 = .str "untagged" := pyEq_str_iff'.mp h1
          have h2 := (bucketFind_some hft).2
          rw [hk] at h2
          rw [h1, h2]
        · have h1' := bool_eq_false h1
          rw [h1']
          symm
          refine bool_eq_false (fun hc => ?_)
          have ht : t = .str "untagged" := pyEq_str_iff'.mp hc
          rw [ht, hf] at hft
          injection hft with hft
          have hk : kb'.1 = .str "untagged" := by
            rw [← hft]
            exact pyEq_str_iff.mp (bucketFind_some hf).2
          rw [hk] at h1'
          exact absurd (pyEq_refl (a := .str "untagged") rfl) (by rw [h1']; simp)
      simp only [pyMem, List.any_cons]
      rw [hEq]
      have hr := ihr
      simp only [pyMem] at hr
      rw [hr]

theorem untagged_cond {bs : Buckets} {tor : List Yaml} {kb : Yaml × Bucket}
    (hf : bucketFind bs (.str "untagged") = some kb) :
    pyMem kb.1 (declaredKeys bs tor) = pyMem (.str "untagged") tor := by
  have hk : kb.1 = .str "untagged" := pyEq_str_iff.mp (bucketFind_some hf).2
  rw [hk, declaredKeys, pyMem_pyDedupAcc, pyMem_untagged_raw hf tor]
  simp [pyMem]

/-! ### The master characterization -/

theorem emitUnlisted_glue {items : List (String × Yaml)} {bs : Buckets}
    (hgp : groupPaths items = .ok bs) (hnd : (items.map Prod.fst).Nodup)
    (tor : List Yaml) {ks2 : List Yaml}
    (hmem2 : ∀ k ∈ ks2, ∃ b, (k, b) ∈ bs)
    (hpw2 : ks2.Pairwise (fun a b => pyEq a b = false))
    (hdecl : ∀ k ∈ ks2, pyMem k tor = true ∨ k = .str "untagged") :
    emitUnlistedAux tor bs (segs bs ks2)
      = segs bs (ks2 ++ (bs.map Prod.fst).filter
          (fun k => !(pyMem k tor) && !(pyEq k (.str "untagged")))) := by
  refine emitUnlistedAux_segs hgp hnd tor bs ks2 (fun kb h => h) (bs_pyDistinct hgp)
    hmem2 hpw2 ?_
  intro kb hkb hun k' hk'
  have hun' := Bool.or_eq_false_iff.mp hun
  rcases hdecl k' hk' with h' | h'
  · refine bool_eq_false (fun hc => ?_)
    obtain ⟨t, ht, het⟩ := pyMem_iff.mp h'
    have h1' : pyEq kb.1 k' = true := by rw [pyEq_symm]; exact hc
    have hX : pyMem kb.1 tor = true := pyMem_iff.mpr ⟨t, ht, pyEq_trans h1' het⟩
    rw [hX] at hun'
    cases hun'.1
  · rw [h']
    refine bool_eq_false (fun hc => ?_)
    have hX : kb.1 = .str "untagged" := pyEq_str_iff'.mp hc
    rw [← pyEq_str_iff] at hX
    rw [hX] at hun'
    cases hun'.2

theorem reorganize_master {out : List (String × Yaml)} {tor : List Yaml}
    {items : List (String × Yaml)} {bs : Buckets} {np1 : List (String × Yaml)}
    (hgp : groupPaths items = .ok bs)
    (hnp1 : emitDeclared bs tor [] = .ok np1)
    (hout : out = emitUnlistedAux tor bs (emitUntagged bs np1))
    (hnd : (items.map Prod.fst).Nodup) :
    out = segs bs (emitOrderKeys bs tor) := by
  have hmemD := @declaredKeys_mem bs tor
  have hpwD := declaredKeys_pairwise bs tor
  have h1 : np1 = segs bs (declaredKeys bs tor) := by
    rw [emitDeclared_eq_pure hnp1]
    have h := emitDeclaredP_segs hgp hnd tor [] (by intro k hk; cases hk) List.Pairwise.nil
    rw [show segs bs ([] : List Yaml) = [] from rfl] at h
    rw [h]
    rfl
  have h2 := emitUntagged_segs hgp hnd hmemD hpwD
  rw [hout, h1]
  cases hf : bucketFind bs (.str "untagged") with
  | none =>
    rw [hf] at h2
    dsimp only at h2
    rw [List.append_nil] at h2
    rw [h2, emitUnlisted_glue hgp hnd tor hmemD hpwD
      (fun k hk => Or.inl (declaredKeys_pyMem k hk))]
    rw [emitOrderKeys, hf]
    simp
  | some kb =>
    rw [hf] at h2
    dsimp only at h2
    have hku : kb.1 = .str "untagged" := pyEq_str_iff.mp (bucketFind_some hf).2
    by_cases hm : pyMem kb.1 (declaredKeys bs tor) = true
    · rw [if_pos hm, List.append_nil] at h2
      rw [h2, emitUnlisted_glue hgp hnd tor hmemD hpwD
        (fun k hk => Or.inl (declaredKeys_pyMem k hk))]
      rw [emitOrderKeys, hf]
      dsimp only
      have hcond : pyMem (.str "untagged") tor = true := by
        rw [← untagged_cond hf]
        exact hm
      rw [if_pos hcond]
      simp
    · have hm' : pyMem kb.1 (declaredKeys bs tor) = false := bool_eq_false hm
      rw [if_neg hm] at h2
      have hmem2 : ∀ k ∈ declaredKeys bs tor ++ [kb.1], ∃ b, (k, b) ∈ bs := by
        intro k hk
        rcases List.mem_append.mp hk with h' | h'
        · exact hmemD k h'
        · rw [List.mem_singleton.mp h']
          exact ⟨kb.2, (bucketFind_some hf).1⟩
      have hpw2 : (declaredKeys bs tor ++ [kb.1]).Pairwise
          (fun a b => pyEq a b = false) := by
        rw [List.pairwise_append]
        refine ⟨hpwD, List.pairwise_singleton _ _, ?_⟩
        intro k' hk' k'' hk''
        rw [List.mem_singleton.mp hk'']
        have := pyMem_false_iff.mp hm' k' hk'
        rw [pyEq_symm] at this
        exact this
      have hdecl : ∀ k ∈ declaredKeys bs tor ++ [kb.1],
          pyMem k tor = true ∨ k = .str "untagged" := by
        intro k hk
        rcases List.mem_append.mp hk with h' | h'
        · exact Or.inl (declaredKeys_pyMem k h')
        · right
          rw [List.mem_singleton.mp h']
          exact hku
      rw [h2, emitUnlisted_glue hgp hnd tor hmem2 hpw2 hdecl]
      rw [emitOrderKeys, hf]
      dsimp only
      have hcond : pyMem (.str "untagged") tor = false := by
        rw [← untagged_cond hf]
        exact hm'
      rw [if_neg (show ¬ pyMem (Yaml.str "untagged") tor = true by rw [hcond]; simp)]

/-! ### The output is a permutation of the input items -/

theorem bucketFind_class {bs : Buckets} (hd : PyDistinct bs) {k t : Yaml} {b : Bucket}
    (hkb : (k, b) ∈ bs) (he : pyEq k t = true) : bucketFind bs t = some (k, b) := by
  induction bs with
  | nil => cases hkb
  | cons kb' rest ih =>
    rw [PyDistinct, List.pairwise_cons] at hd
    obtain ⟨k', b'⟩ := kb'
    rcases List.mem_cons.mp hkb with hee | hm
    · injection hee with h1 h2
      subst h1
      subst h2
      exact bucketFind_cons_pos he
    · have hne : pyEq k' t = false := by
        refine bool_eq_false (fun hc => ?_)
        have hck : pyEq k' k = true := pyEq_trans hc (by rw [pyEq_symm]; exact he)
        have := hd.1 (k, b) hm
        rw [this] at hck
        cases hck
      rw [bucketFind_cons_neg hne]
      exact ih hd.2 hm

theorem mem_pyDedupAcc_of_mem {x : Yaml} :
    ∀ {l seen : List Yaml}, x ∈ l → (∀ y ∈ l, pyEq y x = true → y = x) →
      pyMem x seen = false → x ∈ pyDedupAcc seen l := by
  intro l
  induction l with
  | nil => intro seen h _ _; cases h
  | cons y ys ih =>
    intro seen hx hcl hs
    simp only [pyDedupAcc]
    by_cases hm : pyMem y seen = true
    · rw [if_pos hm]
      rcases List.mem_cons.mp hx with he | hx'
      · subst he
        rw [hm] at hs
        cases hs
      · exact ih hx' (fun y hy he => hcl y (by simp [hy]) he) hs
    · rw [if_neg hm]
      by_cases hxy : pyEq x y = true
      · have hyx : y = x := hcl y (by simp) (by rw [pyEq_symm]; exact hxy)
        rw [← hyx]
        simp
      · rcases List.mem_cons.mp hx with he | hx'
        · rw [he]; simp
        · refine List.mem_cons_of_mem _ (ih hx' (fun z hz he => hcl z (by simp [hz]) he) ?_)
          rw [pyMem_false_iff]
          intro z hz
          rcases List.mem_cons.mp hz with he | hz'
          · rw [he]; exact bool_eq_false hxy
          · exact pyMem_false_iff.mp hs z hz'

theorem stored_mem_declaredKeys {items : List (String × Yaml)} {bs : Buckets}
    (hgp : groupPaths items = .ok bs) {tor : List Yaml} {k : Yaml} {b : Bucket}
    (hkb : (k, b) ∈ bs) (hm : pyMem k tor = true) : k ∈ declaredKeys bs tor := by
  obtain ⟨t, ht, het⟩ := pyMem_iff.mp hm
  have hfind := bucketFind_class (bs_pyDistinct hgp) hkb het
  have hraw : k ∈ declaredKeysRaw bs tor :=
    List.mem_filterMap.mpr ⟨t, ht, by rw [hfind]; rfl⟩
  refine mem_pyDedupAcc_of_mem hraw ?_ rfl
  intro y hy he
  obtain ⟨b', hb'⟩ := declaredKeysRaw_mem y hy
  have hee := entry_eq_of_pyEq (bs_pyDistinct hgp) hb' hkb he
  rw [Prod.mk.injEq] at hee
  exact hee.1

theorem pairwise_keys_nodup {ks : List Yaml}
    (hpw : ks.Pairwise (fun a b => pyEq a b = false))
    (hh : ∀ k ∈ ks, hashable k = true) : ks.Nodup := by
  refine List.Pairwise.imp_of_mem ?_ hpw
  intro a b ha _ hab he
  subst he
  rw [pyEq_refl (hh a ha)] at hab
  cases hab

theorem emitOrderKeys_pairwise {items : List (String × Yaml)} {bs : Buckets}
    (hgp : groupPaths items = .ok bs) (tor : List Yaml) :
    (emitOrderKeys bs tor).Pairwise (fun a b => pyEq a b = false) := by
  have hbsk : (bs.map Prod.fst).Pairwise (fun a b => pyEq a b = false) := by
    rw [List.pairwise_map]
    exact bs_pyDistinct hgp
  rw [emitOrderKeys, List.pairwise_append]
  refine ⟨?_, List.Pairwise.sublist (List.filter_sublist _) hbsk, ?_⟩
  · rw [List.pairwise_append]
    refine ⟨declaredKeys_pairwise bs tor, ?_, ?_⟩
    · cases hf : bucketFind bs (.str "untagged") with
      | none => exact List.Pairwise.nil
      | some kb =>
        dsimp only
        split
        · exact List.Pairwise.nil
        · exact List.pairwise_singleton _ _
    · intro a ha b hb
      revert hb
      cases hf : bucketFind bs (.str "untagged") with
      | none => intro hb; cases hb
      | some kb =>
        dsimp only
        split
        · intro hb; cases hb
        · rename_i hnm
          intro hb
          rw [List.mem_singleton.mp hb]
          have hnm' : pyMem kb.1 (declaredKeys bs tor) = false := by
            rw [untagged_cond hf]
            exact bool_eq_false hnm
          have := pyMem_false_iff.mp hnm' a ha
          rw [pyEq_symm]
          exact this
  · intro a ha b hb
    rw [List.mem_filter] at hb
    have hb2 := hb.2
    rw [Bool.and_eq_true] at hb2
    rcases List.mem_append.mp ha with ha | ha
    · -- a declared, b unlisted
      have hatm : pyMem a tor = true := declaredKeys_pyMem a ha
      refine bool_eq_false (fun hc => ?_)
      obtain ⟨t, ht, het⟩ := pyMem_iff.mp hatm
      have hba : pyEq b a = true := by rw [pyEq_symm]; exact hc
      have hbt : pyMem b tor = true := pyMem_iff.mpr ⟨t, ht, pyEq_trans hba het⟩
      have h1 := hb2.1
      rw [hbt] at h1
      cases h1
    · -- a is the untagged key
      have hau : a = .str "untagged" := by
        revert ha
        cases hf : bucketFind bs (.str "untagged") with
        | none => intro ha; cases ha
        | some kb =>
          dsimp only
          split
          · intro ha; cases ha
          · intro ha
            rw [List.mem_singleton.mp ha]
            exact pyEq_str_iff.mp (bucketFind_some hf).2
      have hbn : pyEq b (.str "untagged") = false := by
        have h2 := hb2.2
        cases hc : pyEq b (.str "untagged") with
        | false => rfl
        | true => rw [hc] at h2; cases h2
      rw [hau, pyEq_symm]
      exact hbn

theorem mem_emitOrderKeys {items : List (String × Yaml)} {bs : Buckets}
    (hgp : groupPaths items = .ok bs) (tor : List Yaml) {k : Yaml} :
    k ∈ emitOrderKeys bs tor ↔ k ∈ bs.map Prod.fst := by
  constructor
  · intro hk
    rw [emitOrderKeys] at hk
    rcases List.mem_append.mp hk with h | h
    · rcases List.mem_append.mp h with h | h
      · obtain ⟨b, hb⟩ := declaredKeys_mem k h
        exact List.mem_map.mpr ⟨(k, b), hb, rfl⟩
      · revert h
        cases hf : bucketFind bs (.str "untagged") with
        | none => intro h; cases h
        | some kb =>
          dsimp only
          split
          · intro h; cases h
          · intro h
            rw [List.mem_singleton.mp h]
            exact List.mem_map.mpr ⟨kb, (bucketFind_some hf).1, rfl⟩
    · exact (List.mem_filter.mp h).1
  · intro hk
    obtain ⟨kb, hkb, he⟩ := List.mem_map.mp hk
    obtain ⟨k0, b0⟩ := kb
    simp only at he
    subst he
    rw [emitOrderKeys]
    by_cases hm : pyMem k0 tor = true
    · exact List.mem_append_left _
        (List.mem_append_left _ (stored_mem_declaredKeys hgp hkb hm))
    · have hm' : pyMem k0 tor = false := bool_eq_false hm
      by_cases hu : pyEq k0 (.str "untagged") = true
      · have hk0 : k0 = .str "untagged" := pyEq_str_iff.mp hu
        refine List.mem_append_left _ (List.mem_append_right _ ?_)
        have hf : bucketFind bs (.str "untagged") = some (k0, b0) := by
          rw [← hk0]
          exact bucketFind_self (bs_pyDistinct hgp) hkb (bs_keys_hashable hgp _ hkb)
        rw [hf]
        dsimp only
        have hcond : pyMem (.str "untagged") tor = false := by
          rw [← untagged_cond hf, pyMem_false_iff]
          intro y hy
          refine bool_eq_false (fun hc => ?_)
          obtain ⟨b2, hb2⟩ := declaredKeys_mem y hy
          have hee := entry_eq_of_pyEq (bs_pyDistinct hgp) hkb hb2 hc
          rw [Prod.mk.injEq] at hee
          have := declaredKeys_pyMem y hy
          rw [← hee.1, hm'] at this
          cases this
        rw [if_neg (by rw [hcond]; simp)]
        simp
      · refine List.mem_append_right _ ?_
        rw [List.mem_filter]
        refine ⟨List.mem_map.mpr ⟨(k0, b0), hkb, rfl⟩, ?_⟩
        rw [hm', bool_eq_false hu]
        rfl

theorem emitOrderKeys_perm {items : List (String × Yaml)} {bs : Buckets}
    (hgp : groupPaths items = .ok bs) (tor : List Yaml) :
    (emitOrderKeys bs tor).Perm (bs.map Prod.fst) := by
  refine (List.perm_ext_iff_of_nodup ?_ ?_).mpr ?_
  · refine pairwise_keys_nodup (emitOrderKeys_pairwise hgp tor) ?_
    intro k hk
    obtain ⟨kb, hkb, he⟩ := List.mem_map.mp ((mem_emitOrderKeys hgp tor).mp hk)
    rw [← he]
    exact bs_keys_hashable hgp _ hkb
  · refine pairwise_keys_nodup ?_ ?_
    · rw [List.pairwise_map]
      exact bs_pyDistinct hgp
    · intro k hk
      obtain ⟨kb, hkb, he⟩ := List.mem_map.mp hk
      rw [← he]
      exact bs_keys_hashable hgp _ hkb
  · intro k
    exact mem_emitOrderKeys hgp tor

theorem segs_stored_perm {items : List (String × Yaml)} {bs : Buckets}
    (hgp : groupPaths items = .ok bs) :
    ∀ (bsuf : Buckets), (∀ kb ∈ bsuf, kb ∈ bs) →
      (segs bs (bsuf.map Prod.fst)).Perm ((bsuf.map Prod.snd).flatten) := by
  intro bsuf
  induction bsuf with
  | nil => intro _; simp [segs]
  | cons kb rest ih =>
    intro hsub
    obtain ⟨k, b⟩ := kb
    rw [List.map_cons, segs_cons, List.map_cons, List.flatten_cons]
    have hc : bucketContents bs k = b :=
      bucketContents_of_find (stored_contents hgp (hsub (k, b) (by simp))).1
    refine List.Perm.append ?_ (ih (fun kb' h => hsub kb' (by simp [h])))
    rw [hc]
    exact sortByKey_perm b

theorem out_perm_items {out : List (String × Yaml)} {tor : List Yaml}
    {items : List (String × Yaml)} {bs : Buckets} {np1 : List (String × Yaml)}
    (hgp : groupPaths items = .ok bs)
    (hnp1 : emitDeclared bs tor [] = .ok np1)
    (hout : out = emitUnlistedAux tor bs (emitUntagged bs np1))
    (hnd : (items.map Prod.fst).Nodup) :
    out.Perm items := by
  rw [reorganize_master hgp hnp1 hout hnd]
  have h1 : (segs bs (emitOrderKeys bs tor)).Perm (segs bs (bs.map Prod.fst)) :=
    ((emitOrderKeys_perm hgp tor).map _).flatten
  refine h1.trans ((segs_stored_perm hgp bs (fun kb h => h)).trans ?_)
  have := groupPathsAux_join_perm hgp
  simpa using this

theorem lookup_eq_of_perm {l1 l2 : List (String × Yaml)} (hp : l1.Perm l2)
    (hn : (l1.map Prod.fst).Nodup) (p : String) :
    lookupStr l1 p = lookupStr l2 p := by
  have hn2 : (l2.map Prod.fst).Nodup := ((hp.map Prod.fst).nodup_iff).mp hn
  cases h1 : lookupStr l1 p with
  | some v =>
    have hm := mem_of_lookupStr h1
    exact (lookupStr_eq_some_of_mem hn2 (hp.mem_iff.mp hm)).symm
  | none =>
    rw [lookupStr_eq_none] at h1
    symm
    rw [lookupStr_eq_none]
    intro hc
    exact h1 ((hp.map Prod.fst).mem_iff.mpr hc)

/-- **C1**: for every document whose `paths` field is a mapping (no duplicate
path keys, as in a parsed YAML mapping), a successful run returns a mapping
whose path keys are a permutation of the input's path keys: no path is dropped
or duplicated, for all shapes of tags and PathItems. -/
theorem C1_keys_complete (doc out items : List (String × Yaml))
    (hok : reorganize_paths_by_tags doc = .ok out)
    (hpaths : lookupStr doc "paths" = some (.map items))
    (hnd : (items.map Prod.fst).Nodup) :
    (out.map Prod.fst).Perm (items.map Prod.fst) := by
  obtain ⟨tor, items', bs, np1, _, hpaths', hgp, hnp1, hout⟩ := reorganize_ok_parts hok
  rw [hpaths] at hpaths'
  injection hpaths' with h
  injection h with h
  subst h
  exact (out_perm_items hgp hnp1 hout hnd).map Prod.fst

/-- Witness for C1: the spec's pets/store scenario. -/
theorem C1_keys_complete_witness :
    (["/pets", "/pets/{id}", "/store/order"] : List String).Perm
      ["/store/order", "/pets", "/pets/{id}"] := by
  have h := C1_keys_complete
    [("tags", .seq [.map [("name", .str "pets")], .map [("name", .str "store")]]),
     ("paths", .map
       [("/store/order", .map [("get", .map [("tags", .seq [.str "store"])])]),
        ("/pets", .map [("get", .map [("tags", .seq [.str "pets"])])]),
        ("/pets/{id}", .map [("get", .map [("tags", .seq [.str "pets"])])])])]
    [("/pets", .map [("get", .map [("tags", .seq [.str "pets"])])]),
     ("/pets/{id}", .map [("get", .map [("tags", .seq [.str "pets"])])]),
     ("/store/order", .map [("get", .map [("tags", .seq [.str "store"])])])]
    [("/store/order", .map [("get", .map [("tags", .seq [.str "store"])])]),
     ("/pets", .map [("get", .map [("tags", .seq [.str "pets"])])]),
     ("/pets/{id}", .map [("get", .map [("tags", .seq [.str "pets"])])])]
    rfl rfl (by decide)
  simpa using h

/-- **C2**: a successful run never alters any PathItem: for every path string,
looking it up in the output gives exactly the value it had in the input `paths`
mapping (and paths absent from the input are absent from the output). -/
theorem C2_content_preserved (doc out items : List (String × Yaml))
    (hok : reorganize_paths_by_tags doc = .ok out)
    (hpaths : lookupStr doc "paths" = some (.map items))
    (hnd : (items.map Prod.fst).Nodup) :
    ∀ p : String, lookupStr out p = lookupStr items p := by
  obtain ⟨tor, items', bs, np1, _, hpaths', hgp, hnp1, hout⟩ := reorganize_ok_parts hok
  rw [hpaths] at hpaths'
  injection hpaths' with h
  injection h with h
  subst h
  have hperm := out_perm_items hgp hnp1 hout hnd
  have hnout : (out.map Prod.fst).Nodup := ((hperm.map Prod.fst).nodup_iff).mpr hnd
  exact lookup_eq_of_perm hperm hnout

/-- Witness for C2: the pets/store scenario preserves `/pets`'s PathItem. -/
theorem C2_content_preserved_witness :
    lookupStr
      [("/pets", .map [("get", .map [("tags", .seq [.str "pets"])])]),
       ("/pets/{id}", .map [("get", .map [("tags", .seq [.str "pets"])])]),
       ("/store/order", .map [("get", .map [("tags", .seq [.str "store"])])])]
      "/pets"
    = lookupStr
      [("/store/order", .map [("get", .map [("tags", .seq [.str "store"])])]),
       ("/pets", .map [("get", .map [("tags", .seq [.str "pets"])])]),
       ("/pets/{id}", .map [("get", .map [("tags", .seq [.str "pets"])])])]
      "/pets" :=
  C2_content_preserved
    [("tags", .seq [.map [("name", .str "pets")], .map [("name", .str "store")]]),
     ("paths", .map
       [("/store/order", .map [("get", .map [("tags", .seq [.str "store"])])]),
        ("/pets", .map [("get", .map [("tags", .seq [.str "pets"])])]),
        ("/pets/{id}", .map [("get", .map [("tags", .seq [.str "pets"])])])])]
    [("/pets", .map [("get", .map [("tags", .seq [.str "pets"])])]),
     ("/pets/{id}", .map [("get", .map [("tags", .seq [.str "pets"])])]),
     ("/store/order", .map [("get", .map [("tags", .seq [.str "store"])])])]
    [("/store/order", .map [("get", .map [("tags", .seq [.str "store"])])]),
     ("/pets", .map [("get", .map [("tags", .seq [.str "pets"])])]),
     ("/pets/{id}", .map [("get", .map [("tags", .seq [.str "pets"])])])]
    rfl rfl (by decide) "/pets"

/-! ### Positions -/

theorem idxOfStr_append_of_mem {l1 : List String} {p : String} (h : p ∈ l1)
    (l2 : List String) : idxOfStr (l1 ++ l2) p = idxOfStr l1 p := by
  induction l1 with
  | nil => cases h
  | cons x xs ih =>
    simp only [List.cons_append, idxOfStr, List.append_eq]
    by_cases hx : x = p
    · rw [if_pos hx, if_pos hx]
    · have hm : p ∈ xs := by
        rcases List.mem_cons.mp h with he | hm
        · exact absurd he.symm hx
        · exact hm
      rw [if_neg hx, if_neg hx, ih hm]

theorem idxOfStr_of_not_mem {l : List String} {p : String} (h : p ∉ l) :
    idxOfStr l p = l.length := by
  induction l with
  | nil => rfl
  | cons x xs ih =>
    simp only [idxOfStr, List.length_cons]
    rw [if_neg (fun he => h (by rw [he]; simp)), ih (fun hm => h (by simp [hm]))]

theorem idxOfStr_append_of_not_mem {l1 : List String} {p : String} (h : p ∉ l1)
    (l2 : List String) : idxOfStr (l1 ++ l2) p = l1.length + idxOfStr l2 p := by
  induction l1 with
  | nil => simp [idxOfStr]
  | cons x xs ih =>
    simp only [List.cons_append, idxOfStr, List.length_cons, List.append_eq]
    rw [if_neg (fun he => h (by rw [he]; simp)), ih (fun hm => h (by simp [hm]))]
    omega

theorem idxOfStr_lt_length {l : List String} {p : String} (h : p ∈ l) :
    idxOfStr l p < l.length := by
  induction l with
  | nil => cases h
  | cons x xs ih =>
    simp only [idxOfStr, List.length_cons]
    by_cases hx : x = p
    · rw [if_pos hx]; omega
    · have hm : p ∈ xs := by
        rcases List.mem_cons.mp h with he | hm
        · exact absurd he.symm hx
        · exact hm
      rw [if_neg hx]
      have := ih hm
      omega

theorem idx_lt_of_split {pre post : List String} {p q : String}
    (hp : p ∈ pre) (hq : q ∉ pre) :
    idxOfStr (pre ++ post) p < idxOfStr (pre ++ post) q := by
  rw [idxOfStr_append_of_mem hp, idxOfStr_append_of_not_mem hq]
  have := idxOfStr_lt_length hp
  omega

/-- Membership of a path in a stored bucket's segment keys, via the class. -/
theorem mem_segKeys_iff {items : List (String × Yaml)} {bs : Buckets}
    (hgp : groupPaths items = .ok bs) (hnd : (items.map Prod.fst).Nodup)
    {k : Yaml} {b : Bucket} (hkb : (k, b) ∈ bs)
    {p : String} {sp : Yaml} {K : Yaml}
    (hp : (p, sp) ∈ items) (hPp : pathPrimary sp = .ok K) :
    p ∈ (sortByKey (bucketContents bs k)).map Prod.fst ↔ pyEq K k = true := by
  rw [sort_keys_mem, stored_contents_filter hgp hkb]
  constructor
  · intro h
    obtain ⟨pv, hpv, he⟩ := List.mem_map.mp h
    rw [List.mem_filter] at hpv
    obtain ⟨p', s'⟩ := pv
    simp only at he
    subst he
    have hs : s' = sp := value_eq_of_mem_nodup hnd hpv.1 hp
    subst hs
    have := hpv.2
    simpa [primB, hPp] using this
  · intro h
    refine List.mem_map.mpr ⟨(p, sp), ?_, rfl⟩
    rw [List.mem_filter]
    exact ⟨hp, by simp [primB, hPp, h]⟩

/-- If the emission order splits as `ks1 ++ ks2`, a path whose class is hit in
`ks1` precedes every path whose class is not represented in `ks1`. -/
theorem segs_idx_lt {items : List (String × Yaml)} {bs : Buckets}
    (hgp : groupPaths items = .ok bs) (hnd : (items.map Prod.fst).Nodup)
    {ks1 ks2 : List Yaml} {p q : String} {sp sq : Yaml} {Kp Kq : Yaml}
    (hmem1 : ∀ k ∈ ks1, ∃ b, (k, b) ∈ bs)
    (hp : (p, sp) ∈ items) (hPp : pathPrimary sp = .ok Kp)
    (hq : (q, sq) ∈ items) (hPq : pathPrimary sq = .ok Kq)
    (hpin : ∃ k ∈ ks1, pyEq Kp k = true)
    (hqout : ∀ k ∈ ks1, pyEq Kq k = false) :
    idxOfStr ((segs bs (ks1 ++ ks2)).map Prod.fst) p
      < idxOfStr ((segs bs (ks1 ++ ks2)).map Prod.fst) q := by
  rw [segs_append, List.map_append]
  apply idx_lt_of_split
  · obtain ⟨k, hk, he⟩ := hpin
    obtain ⟨b, hb⟩ := hmem1 k hk
    exact mem_segs_keys.mpr ⟨k, hk, (mem_segKeys_iff hgp hnd hb hp hPp).mpr he⟩
  · intro hc
    obtain ⟨k, hk, hm⟩ := mem_segs_keys.mp hc
    obtain ⟨b, hb⟩ := hmem1 k hk
    have := (mem_segKeys_iff hgp hnd hb hq hPq).mp hm
    rw [hqout k hk] at this
    cases this

/-! ### Splitting the emission order at a declared tag -/

theorem idxOfTag_split {tor : List Yaml} {s : String} (h : pyMem (.str s) tor = true) :
    ∃ T1 T2, tor = T1 ++ Yaml.str s :: T2 ∧ T1.length = idxOfTag tor s ∧
      ∀ t ∈ T1, pyEq t (.str s) = false := by
  induction tor with
  | nil => simp [pyMem] at h
  | cons t ts ih =>
    by_cases he : pyEq t (.str s) = true
    · have ht : t = .str s := pyEq_str_iff.mp he
      subst ht
      refine ⟨[], ts, rfl, ?_, by simp⟩
      simp [idxOfTag, pyEq]
    · have he' : pyEq t (.str s) = false := bool_eq_false he
      have hm : pyMem (.str s) ts = true := by
        have h2 := h
        simp only [pyMem, List.any_cons, Bool.or_eq_true] at h2
        rcases h2 with h3 | h3
        · rw [pyEq_symm, he'] at h3; cases h3
        · exact h3
      obtain ⟨T1, T2, hsp, hlen, hfr⟩ := ih hm
      refine ⟨t :: T1, T2, by rw [hsp]; rfl, ?_, ?_⟩
      · simp only [List.length_cons, idxOfTag]
        rw [if_neg he, hlen]
      · intro x hx
        rcases List.mem_cons.mp hx with hxe | hxm
        · rw [hxe]; exact he'
        · exact hfr x hxm

theorem idxOfTag_lt_of_mem {T1 : List Yaml} {s : String} (h : Yaml.str s ∈ T1)
    (rest : List Yaml) : idxOfTag (T1 ++ rest) s < T1.length := by
  induction T1 with
  | nil => cases h
  | cons t ts ih =>
    simp only [List.cons_append, idxOfTag, List.length_cons, List.append_eq]
    by_cases he : pyEq t (.str s) = true
    · rw [if_pos he]; omega
    · have ht : Yaml.str s ∈ ts := by
        rcases List.mem_cons.mp h with hxe | hxm
        · exfalso
          apply he
          rw [← hxe]
          simp [pyEq]
        · exact hxm
      rw [if_neg he]
      have := ih ht
      omega

theorem declaredKeysRaw_append (bs : Buckets) (l1 l2 : List Yaml) :
    declaredKeysRaw bs (l1 ++ l2) = declaredKeysRaw bs l1 ++ declaredKeysRaw bs l2 := by
  simp [declaredKeysRaw, List.filterMap_append]

/-- Keys found for tags that are all `==`-distinct from `.str s` are themselves
`==`-distinct from `.str s`. -/
theorem raw_fresh {bs : Buckets} {T1 : List Yaml} {s : String}
    (h : ∀ t ∈ T1, pyEq t (.str s) = false) :
    ∀ k ∈ declaredKeysRaw bs T1, pyEq (.str s) k = false := by
  intro k hk
  refine bool_eq_false (fun hc => ?_)
  obtain ⟨t, ht, he⟩ := List.mem_filterMap.mp hk
  cases hf : bucketFind bs t with
  | none => rw [hf] at he; cases he
  | some kb =>
    rw [hf] at he
    injection he with he
    have hkt : pyEq kb.1 t = true := (bucketFind_some hf).2
    have hks : k = .str s := pyEq_str_iff'.mp hc
    rw [he, hks] at hkt
    have htts : t = .str s := pyEq_str_iff'.mp hkt
    rw [htts] at ht
    have hff := h _ ht
    have htt : pyEq (Yaml.str s) (Yaml.str s) = true := by simp [pyEq]
    rw [htt] at hff
    cases hff

theorem append_split_assoc {α : Type} {D1 D2 m f : List α} {a : α} :
    ((D1 ++ a :: D2) ++ m) ++ f = (D1 ++ [a]) ++ (D2 ++ (m ++ f)) := by
  simp [List.append_assoc]

/-- Core ordering fact: if tag `A` is declared and its first `==`-occurrence
comes strictly before the first `==`-occurrence of `B` in the tag order (in
particular whenever `B` is not declared at all, since then `idxOfTag` is the
full length), every path of primary class `A` precedes every path of primary
class `B` in the reorganized output. -/
theorem declared_before {items out : List (String × Yaml)} {bs : Buckets}
    {tor : List Yaml} {A B p q : String} {sp sq : Yaml}
    (hgp : groupPaths items = .ok bs) (hnd : (items.map Prod.fst).Nodup)
    (hout : out = segs bs (emitOrderKeys bs tor))
    (hmA : pyMem (.str A) tor = true)
    (hidx : idxOfTag tor A < idxOfTag tor B)
    (hp : (p, sp) ∈ items) (hPp : pathPrimary sp = .ok (.str A))
    (hq : (q, sq) ∈ items) (hPq : pathPrimary sq = .ok (.str B)) :
    idxOfStr (out.map Prod.fst) p < idxOfStr (out.map Prod.fst) q := by
  have hAB : A ≠ B := by
    intro he
    rw [he] at hidx
    omega
  have hfilter : (p, sp) ∈ items.filter (fun pv => primB pv (.str A)) := by
    rw [List.mem_filter]
    exact ⟨hp, by simp [primB, hPp, pyEq]⟩
  have hsome : (bucketFind bs (.str A)).isSome = true := by
    rw [bs_find_isSome hgp]
    intro hc
    rw [hc] at hfilter
    cases hfilter
  obtain ⟨kb, hfA0⟩ := Option.isSome_iff_exists.mp hsome
  obtain ⟨kA, bA⟩ := kb
  have hkA : kA = .str A := pyEq_str_iff.mp (bucketFind_some hfA0).2
  subst hkA
  obtain ⟨T1, T2, hsp', hlen, hfrA⟩ := idxOfTag_split hmA
  have hfrB : ∀ t ∈ T1, pyEq t (.str B) = false := by
    intro t ht
    refine bool_eq_false (fun hc => ?_)
    have htB : t = .str B := pyEq_str_iff.mp hc
    subst htB
    have hlt := idxOfTag_lt_of_mem ht (Yaml.str A :: T2)
    rw [← hsp'] at hlt
    omega
  have hraw : declaredKeysRaw bs tor
      = declaredKeysRaw bs T1 ++ Yaml.str A :: declaredKeysRaw bs T2 := by
    rw [hsp', declaredKeysRaw_append, declaredKeysRaw_cons_some hfA0]
  have hR1A : ∀ k ∈ declaredKeysRaw bs T1, pyEq (.str A) k = false :=
    raw_fresh hfrA
  have hR1B : ∀ k ∈ declaredKeysRaw bs T1, pyEq (.str B) k = false :=
    raw_fresh hfrB
  have hmemA : pyMem (.str A) (declaredKeysRaw bs T1) = false :=
    pyMem_false_iff.mpr hR1A
  have hdecl : declaredKeys bs tor
      = pyDedupAcc [] (declaredKeysRaw bs T1)
        ++ Yaml.str A
          :: pyDedupAcc (Yaml.str A :: declaredKeysRaw bs T1)
              (declaredKeysRaw bs T2) := by
    rw [declaredKeys, hraw, pyDedupAcc_append]
    simp only [List.nil_append]
    simp only [pyDedupAcc]
    rw [if_neg (by simp [hmemA])]
  obtain ⟨rest, hEOK⟩ : ∃ rest,
      emitOrderKeys bs tor
        = (pyDedupAcc [] (declaredKeysRaw bs T1) ++ [Yaml.str A]) ++ rest := by
    rw [emitOrderKeys, hdecl]
    exact ⟨_, append_split_assoc⟩
  have hmem1 : ∀ k ∈ pyDedupAcc [] (declaredKeysRaw bs T1) ++ [Yaml.str A],
      ∃ b, (k, b) ∈ bs := by
    intro k hk
    rcases List.mem_append.mp hk with hk | hk
    · exact @declaredKeysRaw_mem bs T1 k (pyDedupAcc_subset hk)
    · rw [List.mem_singleton] at hk
      subst hk
      exact ⟨bA, (bucketFind_some hfA0).1⟩
  have hpin : ∃ k ∈ pyDedupAcc [] (declaredKeysRaw bs T1) ++ [Yaml.str A],
      pyEq (Yaml.str A) k = true :=
    ⟨.str A, by simp, by simp [pyEq]⟩
  have hqout : ∀ k ∈ pyDedupAcc [] (declaredKeysRaw bs T1) ++ [Yaml.str A],
      pyEq (Yaml.str B) k = false := by
    intro k hk
    rcases List.mem_append.mp hk with hk | hk
    · exact hR1B k (pyDedupAcc_subset hk)
    · rw [List.mem_singleton] at hk
      subst hk
      refine bool_eq_false (fun hc => ?_)
      exact hAB (Yaml.str.inj (pyEq_str_iff'.mp hc))
  rw [hout, hEOK]
  exact segs_idx_lt hgp hnd hmem1 hp hPp hq hPq hpin hqout

/-- **C4**: tag-order respect — on a successful run, if tags `A` and `B` are
both declared in the document's tag order and the first occurrence of `A`
comes strictly before the first occurrence of `B`, then every path whose
primary tag is `A` appears strictly before every path whose primary tag is `B`
in the output. -/
theorem C4_tag_order (doc out items : List (String × Yaml)) (tor : List Yaml)
    (A B p q : String) (sp sq : Yaml)
    (hok : reorganize_paths_by_tags doc = .ok out)
    (htor : tagOrderOf doc = .ok tor)
    (hpaths : lookupStr doc "paths" = some (.map items))
    (hnd : (items.map Prod.fst).Nodup)
    (hA : pyMem (.str A) tor = true)
    (hB : pyMem (.str B) tor = true)
    (hidx : idxOfTag tor A < idxOfTag tor B)
    (hp : lookupStr items p = some sp) (hPp : pathPrimary sp = .ok (.str A))
    (hq : lookupStr items q = some sq) (hPq : pathPrimary sq = .ok (.str B)) :
    idxOfStr (out.map Prod.fst) p < idxOfStr (out.map Prod.fst) q := by
  obtain ⟨tor', items', bs, np1, htor', hpaths', hgp, hnp1, hout⟩ :=
    reorganize_ok_parts hok
  rw [htor] at htor'
  injection htor' with h1
  subst h1
  rw [hpaths] at hpaths'
  injection hpaths' with h2
  injection h2 with h2
  subst h2
  have hmaster := reorganize_master hgp hnp1 hout hnd
  exact declared_before hgp hnd hmaster hA hidx (mem_of_lookupStr hp) hPp
    (mem_of_lookupStr hq) hPq

/-- Witness for C4 at the spec's pets/store scenario: "pets" is declared
before "store", so "/pets" precedes "/store/order" in the output. -/
theorem C4_tag_order_witness :
    idxOfStr
        (([("/pets", Yaml.map [("get", .map [("tags", .seq [.str "pets"])])]),
           ("/pets/{id}", Yaml.map [("get", .map [("tags", .seq [.str "pets"])])]),
           ("/store/order", Yaml.map [("get", .map [("tags", .seq [.str "store"])])])]
          : List (String × Yaml)).map Prod.fst) "/pets"
      < idxOfStr
          (([("/pets", Yaml.map [("get", .map [("tags", .seq [.str "pets"])])]),
             ("/pets/{id}", Yaml.map [("get", .map [("tags", .seq [.str "pets"])])]),
             ("/store/order", Yaml.map [("get", .map [("tags", .seq [.str "store"])])])]
            : List (String × Yaml)).map Prod.fst) "/store/order" :=
  C4_tag_order
    [("tags", .seq [.map [("name", .str "pets")], .map [("name", .str "store")]]),
     ("paths", .map
       [("/store/order", .map [("get", .map [("tags", .seq [.str "store"])])]),
        ("/pets", .map [("get", .map [("tags", .seq [.str "pets"])])]),
        ("/pets/{id}", .map [("get", .map [("tags", .seq [.str "pets"])])])])]
    [("/pets", .map [("get", .map [("tags", .seq [.str "pets"])])]),
     ("/pets/{id}", .map [("get", .map [("tags", .seq [.str "pets"])])]),
     ("/store/order", .map [("get", .map [("tags", .seq [.str "store"])])])]
    [("/store/order", .map [("get", .map [("tags", .seq [.str "store"])])]),
     ("/pets", .map [("get", .map [("tags", .seq [.str "pets"])])]),
     ("/pets/{id}", .map [("get", .map [("tags", .seq [.str "pets"])])])]
    [.str "pets", .str "store"]
    "pets" "store" "/pets" "/store/order"
    (.map [("get", .map [("tags", .seq [.str "pets"])])])
    (.map [("get", .map [("tags", .seq [.str "store"])])])
    rfl rfl rfl (by decide) rfl rfl (by decide) rfl rfl rfl rfl

/-! ### C6: untagged placement -/

theorem idxOfTag_of_not_mem {tor : List Yaml} {s : String}
    (h : pyMem (.str s) tor = false) : idxOfTag tor s = tor.length := by
  induction tor with
  | nil => rfl
  | cons t ts ih =>
    simp only [pyMem, List.any_cons, Bool.or_eq_false_iff] at h
    simp only [idxOfTag, List.length_cons]
    rw [if_neg (by rw [pyEq_symm]; simp [h.1]), ih h.2]

theorem idxOfTag_lt_length {tor : List Yaml} {s : String}
    (h : pyMem (.str s) tor = true) : idxOfTag tor s < tor.length := by
  obtain ⟨T1, T2, hsp, hlen, _⟩ := idxOfTag_split h
  subst hsp
  rw [← hlen]
  simp only [List.length_append, List.length_cons]
  omega

/-- **C6** (amended: the sentinel must not itself be a declared tag name) — on
a successful run where `"untagged"` is not declared in the tag order, every
path with a declared primary tag precedes every untagged path, and every
untagged path precedes every path whose primary tag is neither declared nor
the sentinel. -/
theorem C6_untagged_placement (doc out items : List (String × Yaml)) (tor : List Yaml)
    (A C d u x : String) (sd su sx : Yaml)
    (hok : reorganize_paths_by_tags doc = .ok out)
    (htor : tagOrderOf doc = .ok tor)
    (hpaths : lookupStr doc "paths" = some (.map items))
    (hnd : (items.map Prod.fst).Nodup)
    (hnu : pyMem (.str "untagged") tor = false)
    (hA : pyMem (.str A) tor = true)
    (hd : lookupStr items d = some sd) (hPd : pathPrimary sd = .ok (.str A))
    (hu : lookupStr items u = some su) (hPu : pathPrimary su = .ok (.str "untagged"))
    (hC : pyMem (.str C) tor = false) (hCu : C ≠ "untagged")
    (hx : lookupStr items x = some sx) (hPx : pathPrimary sx = .ok (.str C)) :
    idxOfStr (out.map Prod.fst) d < idxOfStr (out.map Prod.fst) u
      ∧ idxOfStr (out.map Prod.fst) u < idxOfStr (out.map Prod.fst) x := by
  obtain ⟨tor', items', bs, np1, htor', hpaths', hgp, hnp1, hout⟩ :=
    reorganize_ok_parts hok
  rw [htor] at htor'
  injection htor' with h1
  subst h1
  rw [hpaths] at hpaths'
  injection hpaths' with h2
  injection h2 with h2
  subst h2
  have hmaster := reorganize_master hgp hnp1 hout hnd
  constructor
  · refine declared_before hgp hnd hmaster hA ?_ (mem_of_lookupStr hd) hPd
      (mem_of_lookupStr hu) hPu
    rw [idxOfTag_of_not_mem hnu]
    exact idxOfTag_lt_length hA
  · -- the untagged bucket exists and is stored under the sentinel key
    have hfilter : (u, su) ∈ items.filter (fun pv => primB pv (.str "untagged")) := by
      rw [List.mem_filter]
      exact ⟨mem_of_lookupStr hu, by simp [primB, hPu, pyEq]⟩
    have hsome : (bucketFind bs (.str "untagged")).isSome = true := by
      rw [bs_find_isSome hgp]
      intro hc
      rw [hc] at hfilter
      cases hfilter
    obtain ⟨kb, hf⟩ := Option.isSome_iff_exists.mp hsome
    obtain ⟨kU, bU⟩ := kb
    have hkU : kU = .str "untagged" := pyEq_str_iff.mp (bucketFind_some hf).2
    subst hkU
    -- the emission order is (declared ++ [sentinel]) ++ unlisted
    have hEOK2 : emitOrderKeys bs tor
        = (declaredKeys bs tor ++ [Yaml.str "untagged"])
          ++ (bs.map Prod.fst).filter
              (fun k => !(pyMem k tor) && !(pyEq k (.str "untagged"))) := by
      rw [emitOrderKeys, hf]
      dsimp only
      rw [if_neg (by simp [hnu])]
    have hmem1 : ∀ k ∈ declaredKeys bs tor ++ [Yaml.str "untagged"],
        ∃ b, (k, b) ∈ bs := by
      intro k hk
      rcases List.mem_append.mp hk with hk | hk
      · exact declaredKeys_mem k hk
      · rw [List.mem_singleton] at hk
        subst hk
        exact ⟨bU, (bucketFind_some hf).1⟩
    have hpin : ∃ k ∈ declaredKeys bs tor ++ [Yaml.str "untagged"],
        pyEq (Yaml.str "untagged") k = true :=
      ⟨.str "untagged", by simp, by simp [pyEq]⟩
    have hqout : ∀ k ∈ declaredKeys bs tor ++ [Yaml.str "untagged"],
        pyEq (Yaml.str C) k = false := by
      intro k hk
      refine bool_eq_false (fun hc => ?_)
      have hkC : k = .str C := pyEq_str_iff'.mp hc
      subst hkC
      rcases List.mem_append.mp hk with hk | hk
      · have := declaredKeys_pyMem _ hk
        rw [hC] at this
        cases this
      · rw [List.mem_singleton] at hk
        exact hCu (Yaml.str.inj hk)
    rw [hmaster, hEOK2]
    exact segs_idx_lt hgp hnd hmem1 (mem_of_lookupStr hu) hPu
      (mem_of_lookupStr hx) hPx hpin hqout

/-- Counterexample to C6 as stated: when `"untagged"` is itself a declared tag
name, the untagged bucket is emitted at its declared position — here *before*
the declared tag `A`'s group, not after all declared-tag groups. The path
`/u` has no discoverable tag (its primary is the sentinel), the path `/a` has
declared primary tag `A`, yet `/u` comes first in the output. -/
theorem C6_untagged_placement_counterexample :
    reorganize_paths_by_tags
        [("tags", .seq [.map [("name", .str "untagged")], .map [("name", .str "A")]]),
         ("paths", .map
           [("/a", .map [("get", .map [("tags", .seq [.str "A"])])]),
            ("/u", .map [])])]
      = .ok [("/u", .map []),
             ("/a", .map [("get", .map [("tags", .seq [.str "A"])])])]
    ∧ pathPrimary (.map []) = .ok (.str "untagged")
    ∧ pathPrimary (.map [("get", .map [("tags", .seq [.str "A"])])]) = .ok (.str "A") :=
  ⟨rfl, rfl, rfl⟩

/-- Witness for the amended C6: declared `/d` (tag A) before untagged `/u`
before unlisted `/x` (tag C). -/
theorem C6_untagged_placement_witness :
    idxOfStr
        (([("/d", Yaml.map [("get", .map [("tags", .seq [.str "A"])])]),
           ("/u", Yaml.map []),
           ("/x", Yaml.map [("get", .map [("tags", .seq [.str "C"])])])]
          : List (String × Yaml)).map Prod.fst) "/d"
      < idxOfStr
          (([("/d", Yaml.map [("get", .map [("tags", .seq [.str "A"])])]),
             ("/u", Yaml.map []),
             ("/x", Yaml.map [("get", .map [("tags", .seq [.str "C"])])])]
            : List (String × Yaml)).map Prod.fst) "/u"
    ∧ idxOfStr
          (([("/d", Yaml.map [("get", .map [("tags", .seq [.str "A"])])]),
             ("/u", Yaml.map []),
             ("/x", Yaml.map [("get", .map [("tags", .seq [.str "C"])])])]
            : List (String × Yaml)).map Prod.fst) "/u"
      < idxOfStr
          (([("/d", Yaml.map [("get", .map [("tags", .seq [.str "A"])])]),
             ("/u", Yaml.map []),
             ("/x", Yaml.map [("get", .map [("tags", .seq [.str "C"])])])]
            : List (String × Yaml)).map Prod.fst) "/x" :=
  C6_untagged_placement
    [("tags", .seq [.map [("name", .str "A")]]),
     ("paths", .map
       [("/x", .map [("get", .map [("tags", .seq [.str "C"])])]),
        ("/u", .map []),
        ("/d", .map [("get", .map [("tags", .seq [.str "A"])])])])]
    [("/d", .map [("get", .map [("tags", .seq [.str "A"])])]),
     ("/u", .map []),
     ("/x", .map [("get", .map [("tags", .seq [.str "C"])])])]
    [("/x", .map [("get", .map [("tags", .seq [.str "C"])])]),
     ("/u", .map []),
     ("/d", .map [("get", .map [("tags", .seq [.str "A"])])])]
    [.str "A"]
    "A" "C" "/d" "/u" "/x"
    (.map [("get", .map [("tags", .seq [.str "A"])])])
    (.map [])
    (.map [("get", .map [("tags", .seq [.str "C"])])])
    rfl rfl rfl (by decide) rfl rfl rfl rfl rfl rfl rfl (by decide) rfl rfl

/-! ### C5: contiguity and sortedness of primary-tag blocks -/

theorem sorted_idx_le {l : List String} {p q : String}
    (hs : l.Pairwise (fun a b => strLe a b = true))
    (hp : p ∈ l) (hq : q ∈ l) (hlt : idxOfStr l p < idxOfStr l q) :
    strLe p q = true := by
  induction l with
  | nil => cases hp
  | cons x xs ih =>
    rw [List.pairwise_cons] at hs
    by_cases hxp : x = p
    · subst hxp
      by_cases hxq : x = q
      · subst hxq
        exact absurd hlt (lt_irrefl _)
      · have hq' : q ∈ xs := by
          rcases List.mem_cons.mp hq with he | hm
          · exact absurd he.symm hxq
          · exact hm
        exact hs.1 q hq'
    · have hp' : p ∈ xs := by
        rcases List.mem_cons.mp hp with he | hm
        · exact absurd he.symm hxp
        · exact hm
      by_cases hxq : x = q
      · exfalso
        simp only [idxOfStr] at hlt
        rw [if_neg hxp, if_pos hxq] at hlt
        omega
      · have hq' : q ∈ xs := by
          rcases List.mem_cons.mp hq with he | hm
          · exact absurd he.symm hxq
          · exact hm
        simp only [idxOfStr] at hlt
        rw [if_neg hxp, if_neg hxq] at hlt
        exact ih hs.2 hp' hq' (by omega)

/-- Shared core of the block properties: paths of one primary-tag class form a
contiguous, lexicographically sorted block of the output. -/
theorem block_sorted_contiguous_core (doc out items : List (String × Yaml))
    (K Kr : Yaml) (p q r : String) (sp sq sr : Yaml)
    (hok : reorganize_paths_by_tags doc = .ok out)
    (hpaths : lookupStr doc "paths" = some (.map items))
    (hnd : (items.map Prod.fst).Nodup)
    (hp : lookupStr items p = some sp) (hPp : pathPrimary sp = .ok K)
    (hq : lookupStr items q = some sq) (hPq : pathPrimary sq = .ok K)
    (hr : lookupStr items r = some sr) (hPr : pathPrimary sr = .ok Kr) :
    (idxOfStr (out.map Prod.fst) p < idxOfStr (out.map Prod.fst) q →
      strLe p q = true)
    ∧ (idxOfStr (out.map Prod.fst) p < idxOfStr (out.map Prod.fst) r →
        idxOfStr (out.map Prod.fst) r < idxOfStr (out.map Prod.fst) q →
        pyEq Kr K = true) := by
  obtain ⟨tor, items', bs, np1, _, hpaths', hgp, hnp1, hout⟩ := reorganize_ok_parts hok
  rw [hpaths] at hpaths'
  injection hpaths' with h2
  injection h2 with h2
  subst h2
  have hmaster := reorganize_master hgp hnp1 hout hnd
  have hgp' : groupPathsAux [] items = .ok bs := hgp
  obtain ⟨K', hK', hhK⟩ := groupPathsAux_scan_ok hgp' (p, sp) (mem_of_lookupStr hp)
  have hKeq : K' = K := by
    have h3 : pathPrimary sp = .ok K' := hK'
    rw [hPp] at h3
    injection h3 with h3
    exact h3.symm
  rw [hKeq] at hhK
  have hrefl : pyEq K K = true := pyEq_refl hhK
  have hfilter : (p, sp) ∈ items.filter (fun pv => primB pv K) := by
    rw [List.mem_filter]
    exact ⟨mem_of_lookupStr hp, by simp [primB, hPp, hrefl]⟩
  have hsome : (bucketFind bs K).isSome = true := by
    rw [bs_find_isSome hgp]
    intro hc
    rw [hc] at hfilter
    cases hfilter
  obtain ⟨kb, hf⟩ := Option.isSome_iff_exists.mp hsome
  obtain ⟨k0, b0⟩ := kb
  have hkb : (k0, b0) ∈ bs := (bucketFind_some hf).1
  have hk0K : pyEq k0 K = true := (bucketFind_some hf).2
  have hKk0 : pyEq K k0 = true := by rw [pyEq_symm]; exact hk0K
  have hk0mem : k0 ∈ emitOrderKeys bs tor :=
    (mem_emitOrderKeys hgp tor).mpr (List.mem_map.mpr ⟨(k0, b0), hkb, rfl⟩)
  obtain ⟨ks1, ks2, hsplit⟩ := List.append_of_mem hk0mem
  have hpw := emitOrderKeys_pairwise hgp tor
  rw [hsplit, List.pairwise_append] at hpw
  have hfresh1 : ∀ k ∈ ks1, pyEq k k0 = false := fun k hk =>
    hpw.2.2 k hk k0 (List.mem_cons_self _ _)
  have hmemEOK : ∀ k ∈ emitOrderKeys bs tor, ∃ b, (k, b) ∈ bs := by
    intro k hk
    obtain ⟨kb2, hkb2, he⟩ := List.mem_map.mp ((mem_emitOrderKeys hgp tor).mp hk)
    obtain ⟨k2, b2⟩ := kb2
    refine ⟨b2, ?_⟩
    have he' : k2 = k := he
    rw [← he']
    exact hkb2
  have hmem1 : ∀ k ∈ ks1, ∃ b, (k, b) ∈ bs := fun k hk =>
    hmemEOK k (by rw [hsplit]; exact List.mem_append.mpr (.inl hk))
  have hkeys : out.map Prod.fst
      = (segs bs ks1).map Prod.fst
        ++ ((sortByKey (bucketContents bs k0)).map Prod.fst
            ++ (segs bs ks2).map Prod.fst) := by
    rw [hmaster, hsplit, segs_append, segs_cons]
    simp [List.map_append]
  have hclass : ∀ (w : String) (sw Kw : Yaml), (w, sw) ∈ items →
      pathPrimary sw = .ok Kw →
      (w ∈ (sortByKey (bucketContents bs k0)).map Prod.fst ↔ pyEq Kw k0 = true) :=
    fun w sw Kw hw hPw => mem_segKeys_iff hgp hnd hkb hw hPw
  have hinblock : ∀ (w : String) (sw : Yaml), (w, sw) ∈ items →
      pathPrimary sw = .ok K →
      w ∈ (sortByKey (bucketContents bs k0)).map Prod.fst :=
    fun w sw hw hPw => (hclass w sw K hw hPw).mpr hKk0
  have hnotX : ∀ (w : String) (sw : Yaml), (w, sw) ∈ items →
      pathPrimary sw = .ok K →
      w ∉ (segs bs ks1).map Prod.fst := by
    intro w sw hw hPw hc
    obtain ⟨k, hk, hm⟩ := mem_segs_keys.mp hc
    obtain ⟨b, hb⟩ := hmem1 k hk
    have hKk : pyEq K k = true := (mem_segKeys_iff hgp hnd hb hw hPw).mp hm
    have h4 : pyEq k k0 = true := pyEq_trans (by rw [pyEq_symm]; exact hKk) hKk0
    rw [hfresh1 k hk] at h4
    cases h4
  have hidxp : ∀ (w : String) (sw : Yaml), (w, sw) ∈ items →
      pathPrimary sw = .ok K →
      idxOfStr (out.map Prod.fst) w
        = ((segs bs ks1).map Prod.fst).length
          + idxOfStr ((sortByKey (bucketContents bs k0)).map Prod.fst) w := by
    intro w sw hw hPw
    rw [hkeys, idxOfStr_append_of_not_mem (hnotX w sw hw hPw),
      idxOfStr_append_of_mem (hinblock w sw hw hPw)]
  constructor
  · intro hlt
    rw [hidxp p sp (mem_of_lookupStr hp) hPp,
        hidxp q sq (mem_of_lookupStr hq) hPq] at hlt
    have hltB : idxOfStr ((sortByKey (bucketContents bs k0)).map Prod.fst) p
        < idxOfStr ((sortByKey (bucketContents bs k0)).map Prod.fst) q := by omega
    have hsorted : ((sortByKey (bucketContents bs k0)).map Prod.fst).Pairwise
        (fun a b => strLe a b = true) := by
      rw [List.pairwise_map]
      exact sortByKey_sorted _
    exact sorted_idx_le hsorted (hinblock p sp (mem_of_lookupStr hp) hPp)
      (hinblock q sq (mem_of_lookupStr hq) hPq) hltB
  · intro hpr hrq
    by_cases hrB : r ∈ (sortByKey (bucketContents bs k0)).map Prod.fst
    · have h6 : pyEq Kr k0 = true :=
        (hclass r sr Kr (mem_of_lookupStr hr) hPr).mp hrB
      exact pyEq_trans h6 hk0K
    · exfalso
      have hrmem : r ∈ out.map Prod.fst := by
        by_contra hc
        have hqlt : idxOfStr (out.map Prod.fst) q < (out.map Prod.fst).length := by
          apply idxOfStr_lt_length
          rw [hkeys]
          exact List.mem_append.mpr (.inr (List.mem_append.mpr
            (.inl (hinblock q sq (mem_of_lookupStr hq) hPq))))
        rw [idxOfStr_of_not_mem hc] at hrq
        omega
      by_cases hrX : r ∈ (segs bs ks1).map Prod.fst
      · have h7 : idxOfStr (out.map Prod.fst) r
            < ((segs bs ks1).map Prod.fst).length := by
          rw [hkeys, idxOfStr_append_of_mem hrX]
          exact idxOfStr_lt_length hrX
        rw [hidxp p sp (mem_of_lookupStr hp) hPp] at hpr
        omega
      · have hrY : r ∈ (segs bs ks2).map Prod.fst := by
          rw [hkeys] at hrmem
          rcases List.mem_append.mp hrmem with h8 | h8
          · exact absurd h8 hrX
          · rcases List.mem_append.mp h8 with h9 | h9
            · exact absurd h9 hrB
            · exact h9
        have h10 : idxOfStr (out.map Prod.fst) r
            = ((segs bs ks1).map Prod.fst).length
              + (((sortByKey (bucketContents bs k0)).map Prod.fst).length
                + idxOfStr ((segs bs ks2).map Prod.fst) r) := by
          rw [hkeys, idxOfStr_append_of_not_mem hrX, idxOfStr_append_of_not_mem hrB]
        have h11 : idxOfStr ((sortByKey (bucketContents bs k0)).map Prod.fst) q
            < ((sortByKey (bucketContents bs k0)).map Prod.fst).length :=
          idxOfStr_lt_length (hinblock q sq (mem_of_lookupStr hq) hPq)
        rw [hidxp q sq (mem_of_lookupStr hq) hPq] at hrq
        rw [h10] at hrq
        omega

/-- **C5**: primary-tag grouping — on a successful run, paths sharing a
primary-tag class form a contiguous block of the output, internally sorted
lexicographically by path string: for `p` and `q` of the same primary class
`K`, `p` before `q` implies `p ≤ q` in code-point order, and any path `r`
strictly between them has a primary class `==`-equal to `K`. -/
theorem C5_block_sorted_contiguous (doc out items : List (String × Yaml))
    (K Kr : Yaml) (p q r : String) (sp sq sr : Yaml)
    (hok : reorganize_paths_by_tags doc = .ok out)
    (hpaths : lookupStr doc "paths" = some (.map items))
    (hnd : (items.map Prod.fst).Nodup)
    (hp : lookupStr items p = some sp) (hPp : pathPrimary sp = .ok K)
    (hq : lookupStr items q = some sq) (hPq : pathPrimary sq = .ok K)
    (hr : lookupStr items r = some sr) (hPr : pathPrimary sr = .ok Kr) :
    (idxOfStr (out.map Prod.fst) p < idxOfStr (out.map Prod.fst) q →
      strLe p q = true)
    ∧ (idxOfStr (out.map Prod.fst) p < idxOfStr (out.map Prod.fst) r →
        idxOfStr (out.map Prod.fst) r < idxOfStr (out.map Prod.fst) q →
        pyEq Kr K = true) :=
  block_sorted_contiguous_core doc out items K Kr p q r sp sq sr
    hok hpaths hnd hp hPp hq hPq hr hPr

/-- Witness for C5: three paths tagged "A", scrambled in the input, come out
sorted and contiguous. -/
theorem C5_block_sorted_contiguous_witness :
    strLe "/a" "/c" = true ∧ pyEq (.str "A") (.str "A") = true := by
  have h := C5_block_sorted_contiguous
    [("tags", .seq [.map [("name", .str "A")]]),
     ("paths", .map
       [("/b", .map [("get", .map [("tags", .seq [.str "A"])])]),
        ("/c", .map [("get", .map [("tags", .seq [.str "A"])])]),
        ("/a", .map [("get", .map [("tags", .seq [.str "A"])])])])]
    [("/a", .map [("get", .map [("tags", .seq [.str "A"])])]),
     ("/b", .map [("get", .map [("tags", .seq [.str "A"])])]),
     ("/c", .map [("get", .map [("tags", .seq [.str "A"])])])]
    [("/b", .map [("get", .map [("tags", .seq [.str "A"])])]),
     ("/c", .map [("get", .map [("tags", .seq [.str "A"])])]),
     ("/a", .map [("get", .map [("tags", .seq [.str "A"])])])]
    (.str "A") (.str "A") "/a" "/c" "/b"
    (.map [("get", .map [("tags", .seq [.str "A"])])])
    (.map [("get", .map [("tags", .seq [.str "A"])])])
    (.map [("get", .map [("tags", .seq [.str "A"])])])
    rfl rfl (by decide) rfl rfl rfl rfl rfl rfl
  exact ⟨h.1 (by decide), h.2 (by decide) (by decide)⟩

/-! ### C10: the sentinel bucket merges genuine "untagged" tags -/

/-- **C10**: the sentinel is not distinguished from a genuine tag named
"untagged" — a path whose first operation tag is the literal string
`"untagged"` and a path with no tagged operation at all get the same primary
class, land in the same single bucket keyed `"untagged"`, are emitted
interleaved in one lexicographically sorted group (sortedness between them and
class-equality of anything strictly between them), and when `"untagged"` is
declared in the tag order before some tag `B`, that merged group is emitted at
the declared position — before every primary-`B` path, not after all
declared-tag groups. -/
theorem C10_sentinel_merge (doc out items : List (String × Yaml)) (tor : List Yaml)
    (B u1 u2 r q : String) (su1 su2 sr sq Kr : Yaml)
    (hok : reorganize_paths_by_tags doc = .ok out)
    (htor : tagOrderOf doc = .ok tor)
    (hpaths : lookupStr doc "paths" = some (.map items))
    (hnd : (items.map Prod.fst).Nodup)
    (hu1 : lookupStr items u1 = some su1)
    (hscan1 : scanPath su1 = .ok (some (.str "untagged")))
    (hu2 : lookupStr items u2 = some su2)
    (hscan2 : scanPath su2 = .ok none)
    (hr : lookupStr items r = some sr) (hPr : pathPrimary sr = .ok Kr)
    (hdu : pyMem (.str "untagged") tor = true)
    (hidxB : idxOfTag tor "untagged" < idxOfTag tor B)
    (hq : lookupStr items q = some sq) (hPq : pathPrimary sq = .ok (.str B)) :
    pathPrimary su1 = .ok (.str "untagged")
    ∧ pathPrimary su2 = .ok (.str "untagged")
    ∧ (∃ bs b, groupPaths items = .ok bs
        ∧ bucketFind bs (.str "untagged") = some (.str "untagged", b)
        ∧ (u1, su1) ∈ b ∧ (u2, su2) ∈ b)
    ∧ (idxOfStr (out.map Prod.fst) u1 < idxOfStr (out.map Prod.fst) u2 →
        strLe u1 u2 = true)
    ∧ (idxOfStr (out.map Prod.fst) u1 < idxOfStr (out.map Prod.fst) r →
        idxOfStr (out.map Prod.fst) r < idxOfStr (out.map Prod.fst) u2 →
        pyEq Kr (.str "untagged") = true)
    ∧ idxOfStr (out.map Prod.fst) u1 < idxOfStr (out.map Prod.fst) q
    ∧ idxOfStr (out.map Prod.fst) u2 < idxOfStr (out.map Prod.fst) q := by
  have hP1 : pathPrimary su1 = .ok (.str "untagged") := by
    simp [pathPrimary, hscan1, Except.map, bucketKeyOf, truthy]
  have hP2 : pathPrimary su2 = .ok (.str "untagged") := by
    simp [pathPrimary, hscan2, Except.map, bucketKeyOf]
  obtain ⟨tor', items', bs, np1, htor', hpaths', hgp, hnp1, hout⟩ :=
    reorganize_ok_parts hok
  rw [htor] at htor'
  injection htor' with h1
  subst h1
  rw [hpaths] at hpaths'
  injection hpaths' with h2
  injection h2 with h2
  subst h2
  have hmaster := reorganize_master hgp hnp1 hout hnd
  have hrefl : pyEq (Yaml.str "untagged") (Yaml.str "untagged") = true := by
    simp [pyEq]
  have hfil1 : (u1, su1) ∈ items.filter (fun pv => primB pv (.str "untagged")) := by
    rw [List.mem_filter]
    exact ⟨mem_of_lookupStr hu1, by simp [primB, hP1, hrefl]⟩
  have hfil2 : (u2, su2) ∈ items.filter (fun pv => primB pv (.str "untagged")) := by
    rw [List.mem_filter]
    exact ⟨mem_of_lookupStr hu2, by simp [primB, hP2, hrefl]⟩
  have hsome : (bucketFind bs (.str "untagged")).isSome = true := by
    rw [bs_find_isSome hgp]
    intro hc
    rw [hc] at hfil1
    cases hfil1
  obtain ⟨kb, hf⟩ := Option.isSome_iff_exists.mp hsome
  obtain ⟨kU, bU⟩ := kb
  have hkU : kU = .str "untagged" := pyEq_str_iff.mp (bucketFind_some hf).2
  subst hkU
  have hbU : bU = items.filter (fun pv => primB pv (.str "untagged")) :=
    bs_find_contents hgp hf
  refine ⟨hP1, hP2, ⟨bs, bU, hgp, hf, by rw [hbU]; exact hfil1,
    by rw [hbU]; exact hfil2⟩, ?_, ?_, ?_, ?_⟩
  · exact (block_sorted_contiguous_core doc out items (.str "untagged") Kr u1 u2 r
      su1 su2 sr hok hpaths hnd hu1 hP1 hu2 hP2 hr hPr).1
  · exact (block_sorted_contiguous_core doc out items (.str "untagged") Kr u1 u2 r
      su1 su2 sr hok hpaths hnd hu1 hP1 hu2 hP2 hr hPr).2
  · exact declared_before hgp hnd hmaster hdu hidxB (mem_of_lookupStr hu1) hP1
      (mem_of_lookupStr hq) hPq
  · exact declared_before hgp hnd hmaster hdu hidxB (mem_of_lookupStr hu2) hP2
      (mem_of_lookupStr hq) hPq

/-- Witness for C10: `/a` carries the literal tag "untagged", `/c` has no
tagged operation, `/b` carries the literal tag too; "untagged" is declared
before "B"; the merged group [/a, /b, /c] is emitted sorted at the declared
position before the `B` path `/z`. -/
theorem C10_sentinel_merge_witness :
    pathPrimary (Yaml.map [("get", .map [("tags", .seq [.str "untagged"])])])
        = .ok (.str "untagged")
    ∧ pathPrimary (Yaml.map []) = .ok (.str "untagged")
    ∧ (∃ bs b, groupPaths
          [("/z", Yaml.map [("get", .map [("tags", .seq [.str "B"])])]),
           ("/b", Yaml.map [("get", .map [("tags", .seq [.str "untagged"])])]),
           ("/c", Yaml.map []),
           ("/a", Yaml.map [("get", .map [("tags", .seq [.str "untagged"])])])]
          = .ok bs
        ∧ bucketFind bs (.str "untagged") = some (.str "untagged", b)
        ∧ ("/a", Yaml.map [("get", .map [("tags", .seq [.str "untagged"])])]) ∈ b
        ∧ ("/c", Yaml.map []) ∈ b)
    ∧ strLe "/a" "/c" = true
    ∧ pyEq (.str "untagged") (.str "untagged") = true
    ∧ idxOfStr
          (([("/a", Yaml.map [("get", .map [("tags", .seq [.str "untagged"])])]),
             ("/b", Yaml.map [("get", .map [("tags", .seq [.str "untagged"])])]),
             ("/c", Yaml.map []),
             ("/z", Yaml.map [("get", .map [("tags", .seq [.str "B"])])])]
            : List (String × Yaml)).map Prod.fst) "/a"
        < idxOfStr
          (([("/a", Yaml.map [("get", .map [("tags", .seq [.str "untagged"])])]),
             ("/b", Yaml.map [("get", .map [("tags", .seq [.str "untagged"])])]),
             ("/c", Yaml.map []),
             ("/z", Yaml.map [("get", .map [("tags", .seq [.str "B"])])])]
            : List (String × Yaml)).map Prod.fst) "/z"
    ∧ idxOfStr
          (([("/a", Yaml.map [("get", .map [("tags", .seq [.str "untagged"])])]),
             ("/b", Yaml.map [("get", .map [("tags", .seq [.str "untagged"])])]),
             ("/c", Yaml.map []),
             ("/z", Yaml.map [("get", .map [("tags", .seq [.str "B"])])])]
            : List (String × Yaml)).map Prod.fst) "/c"
        < idxOfStr
          (([("/a", Yaml.map [("get", .map [("tags", .seq [.str "untagged"])])]),
             ("/b", Yaml.map [("get", .map [("tags", .seq [.str "untagged"])])]),
             ("/c", Yaml.map []),
             ("/z", Yaml.map [("get", .map [("tags", .seq [.str "B"])])])]
            : List (String × Yaml)).map Prod.fst) "/z" := by
  have h := C10_sentinel_merge
    [("tags", .seq [.map [("name", .str "untagged")], .map [("name", .str "B")]]),
     ("paths", .map
       [("/z", .map [("get", .map [("tags", .seq [.str "B"])])]),
        ("/b", .map [("get", .map [("tags", .seq [.str "untagged"])])]),
        ("/c", .map []),
        ("/a", .map [("get", .map [("tags", .seq [.str "untagged"])])])])]
    [("/a", .map [("get", .map [("tags", .seq [.str "untagged"])])]),
     ("/b", .map [("get", .map [("tags", .seq [.str "untagged"])])]),
     ("/c", .map []),
     ("/z", .map [("get", .map [("tags", .seq [.str "B"])])])]
    [("/z", .map [("get", .map [("tags", .seq [.str "B"])])]),
     ("/b", .map [("get", .map [("tags", .seq [.str "untagged"])])]),
     ("/c", .map []),
     ("/a", .map [("get", .map [("tags", .seq [.str "untagged"])])])]
    [.str "untagged", .str "B"]
    "B" "/a" "/c" "/b" "/z"
    (.map [("get", .map [("tags", .seq [.str "untagged"])])])
    (.map [])
    (.map [("get", .map [("tags", .seq [.str "untagged"])])])
    (.map [("get", .map [("tags", .seq [.str "B"])])])
    (.str "untagged")
    rfl rfl rfl (by decide) rfl rfl rfl rfl rfl rfl rfl (by decide) rfl rfl
  exact ⟨h.1, h.2.1, h.2.2.1, h.2.2.2.1 (by decide),
    h.2.2.2.2.1 (by decide) (by decide), h.2.2.2.2.2.1, h.2.2.2.2.2.2⟩

/-! ### C7: idempotence — class congruences -/

theorem pyEq_left_congr {a b : Yaml} (h : pyEq a b = true) (c : Yaml) :
    pyEq a c = pyEq b c := by
  cases hac : pyEq a c with
  | true =>
    exact (pyEq_trans (by rw [pyEq_symm]; exact h) hac).symm
  | false =>
    cases hbc : pyEq b c with
    | false => rfl
    | true =>
      have h2 := pyEq_trans h hbc
      rw [hac] at h2
      cases h2

theorem pyEq_right_congr {a b : Yaml} (h : pyEq a b = true) (c : Yaml) :
    pyEq c a = pyEq c b := by
  rw [pyEq_symm c a, pyEq_symm c b]
  exact pyEq_left_congr h c

theorem pyMem_congr_left {a b : Yaml} (h : pyEq a b = true) (l : List Yaml) :
    pyMem a l = pyMem b l := by
  simp only [pyMem]
  induction l with
  | nil => rfl
  | cons x xs ih =>
    simp only [List.any_cons]
    rw [pyEq_left_congr h x, ih]

theorem primB_congr {k k2 : Yaml} (h : pyEq k k2 = true) (pv : String × Yaml) :
    primB pv k = primB pv k2 := by
  cases hP : pathPrimary pv.2 with
  | error e => simp [primB, hP]
  | ok K =>
    simp only [primB, hP]
    exact pyEq_right_congr h K

theorem contents_eq {items : List (String × Yaml)} {bs : Buckets}
    (hgp : groupPaths items = .ok bs) (t : Yaml) :
    bucketContents bs t = items.filter (fun pv => primB pv t) := by
  cases hf : bucketFind bs t with
  | some kb =>
    have hc := bs_find_contents hgp hf
    simp only [bucketContents, hf, Option.map_some', Option.getD_some]
    exact hc
  | none =>
    simp only [bucketContents, hf, Option.map_none', Option.getD_none]
    by_contra hc
    have hne : items.filter (fun pv => primB pv t) ≠ [] := fun he => hc he.symm
    have h2 := (bs_find_isSome hgp t).mpr hne
    rw [hf] at h2
    cases h2

theorem find_isSome_congr {items out : List (String × Yaml)} {bs bs2 : Buckets}
    (hgp : groupPaths items = .ok bs) (hgp2 : groupPaths out = .ok bs2)
    (hperm : out.Perm items) (t : Yaml) :
    (bucketFind bs2 t).isSome = (bucketFind bs t).isSome := by
  have e2 := bs_find_isSome hgp2 t
  have e1 := bs_find_isSome hgp t
  have hp := hperm.filter (fun pv => primB pv t)
  by_cases h : items.filter (fun pv => primB pv t) = []
  · have h2 : out.filter (fun pv => primB pv t) = [] := by
      rw [h] at hp
      exact hp.eq_nil
    rw [bool_eq_false (fun hc => (e2.mp hc) h2),
      bool_eq_false (fun hc => (e1.mp hc) h)]
  · have h2 : out.filter (fun pv => primB pv t) ≠ [] := by
      intro hc
      rw [hc] at hp
      exact h hp.nil_eq.symm
    rw [e2.mpr h2, e1.mpr h]

theorem sorted_contents_congr {items out : List (String × Yaml)} {bs bs2 : Buckets}
    (hgp : groupPaths items = .ok bs) (hgp2 : groupPaths out = .ok bs2)
    (hperm : out.Perm items) (hnd : (items.map Prod.fst).Nodup)
    {k2 k : Yaml} (h : pyEq k2 k = true) :
    sortByKey (bucketContents bs2 k2) = sortByKey (bucketContents bs k) := by
  rw [contents_eq hgp2 k2, contents_eq hgp k]
  have hfe : out.filter (fun pv => primB pv k2) = out.filter (fun pv => primB pv k) :=
    List.filter_congr (fun pv _ => primB_congr h pv)
  rw [hfe]
  exact sortByKey_eq_of_perm (hperm.filter _)
    (filter_keys_nodup (((hperm.map Prod.fst).nodup_iff).mpr hnd) _)

theorem segs_congr {items out : List (String × Yaml)} {bs bs2 : Buckets}
    (hgp : groupPaths items = .ok bs) (hgp2 : groupPaths out = .ok bs2)
    (hperm : out.Perm items) (hnd : (items.map Prod.fst).Nodup)
    {ks2 ks : List Yaml}
    (h : List.Forall₂ (fun a b => pyEq a b = true) ks2 ks) :
    segs bs2 ks2 = segs bs ks := by
  induction h with
  | nil => rfl
  | cons hab htl ih =>
    rw [segs_cons, segs_cons, ih, sorted_contents_congr hgp hgp2 hperm hnd hab]

/-! ### C7: the class sequence of a reorganized output -/

theorem pyDedupAcc_all_seen {c : Yaml} :
    ∀ (blk : List Yaml) {seen rest : List Yaml},
      (∀ x ∈ blk, pyEq x c = true) → pyMem c seen = true →
      pyDedupAcc seen (blk ++ rest) = pyDedupAcc seen rest := by
  intro blk
  induction blk with
  | nil => intro seen rest _ _; rfl
  | cons x xs ih =>
    intro seen rest hall hc
    have hx : pyEq x c = true := hall x (List.mem_cons_self _ _)
    have hxm : pyMem x seen = true := by
      rw [pyMem_congr_left hx]
      exact hc
    simp only [List.cons_append, pyDedupAcc]
    rw [if_pos hxm]
    exact ih (fun y hy => hall y (List.mem_cons_of_mem _ hy)) hc

theorem block_all {items : List (String × Yaml)} {bs : Buckets}
    (hgp : groupPaths items = .ok bs) (k : Yaml) :
    ∀ K ∈ (sortByKey (bucketContents bs k)).filterMap
        (fun pv => (pathPrimary pv.2).toOption), pyEq K k = true := by
  intro K hK
  obtain ⟨pv, hpv, he⟩ := List.mem_filterMap.mp hK
  rw [sortByKey_mem, contents_eq hgp, List.mem_filter] at hpv
  have h2 := hpv.2
  cases hP : pathPrimary pv.2 with
  | error e =>
    simp only [primB, hP] at h2
    cases h2
  | ok K' =>
    simp only [primB, hP] at h2
    rw [hP] at he
    simp only [Except.toOption] at he
    injection he with he
    rw [← he]
    exact h2

theorem block_ne {items : List (String × Yaml)} {bs : Buckets}
    (hgp : groupPaths items = .ok bs) {k : Yaml} {b : Bucket} (hb : (k, b) ∈ bs) :
    (sortByKey (bucketContents bs k)).filterMap
      (fun pv => (pathPrimary pv.2).toOption) ≠ [] := by
  have hne : bucketContents bs k ≠ [] := by
    rw [contents_eq hgp]
    have hiso := bucketFind_self (bs_pyDistinct hgp) hb (bs_keys_hashable hgp _ hb)
    exact (bs_find_isSome hgp k).mp (by rw [hiso]; rfl)
  intro hc
  cases hcts : bucketContents bs k with
  | nil => exact hne hcts
  | cons pv0 rest =>
    have hpv0 : pv0 ∈ sortByKey (bucketContents bs k) := by
      rw [sortByKey_mem, hcts]
      exact List.mem_cons_self _ _
    have hpmem : pv0 ∈ items.filter (fun pv => primB pv k) := by
      rw [← contents_eq hgp, hcts]
      exact List.mem_cons_self _ _
    rw [List.mem_filter] at hpmem
    have h2 := hpmem.2
    cases hP : pathPrimary pv0.2 with
    | error e =>
      simp only [primB, hP] at h2
      cases h2
    | ok K =>
      have h3 : (K : Yaml) ∈ ([] : List Yaml) := by
        rw [← hc]
        exact List.mem_filterMap.mpr ⟨pv0, hpv0, by rw [hP]; rfl⟩
      cases h3

theorem dedup_segs_forall2 {items : List (String × Yaml)} {bs : Buckets}
    (hgp : groupPaths items = .ok bs) :
    ∀ (ks : List Yaml), ks.Pairwise (fun a b => pyEq a b = false) →
      (∀ k ∈ ks, ∃ b, (k, b) ∈ bs) →
      ∀ (seen : List Yaml), (∀ k ∈ ks, pyMem k seen = false) →
      List.Forall₂ (fun a b => pyEq a b = true)
        (pyDedupAcc seen
          ((segs bs ks).filterMap (fun pv => (pathPrimary pv.2).toOption)))
        ks := by
  intro ks
  induction ks with
  | nil =>
    intro _ _ seen _
    simp only [segs, List.map_nil, List.flatten_nil, List.filterMap_nil, pyDedupAcc]
    exact List.Forall₂.nil
  | cons k ks' ih =>
    intro hpw hmem seen hfresh
    obtain ⟨b, hb⟩ := hmem k (List.mem_cons_self _ _)
    rw [List.pairwise_cons] at hpw
    rw [segs_cons, List.filterMap_append]
    have hall := block_all hgp k
    have hne := block_ne hgp hb
    cases hblk : (sortByKey (bucketContents bs k)).filterMap
        (fun pv => (pathPrimary pv.2).toOption) with
    | nil => exact absurd hblk hne
    | cons x xs =>
      rw [hblk] at hall
      have hxk : pyEq x k = true := hall x (List.mem_cons_self _ _)
      have hkx : pyEq k x = true := by rw [pyEq_symm]; exact hxk
      have hxs : ∀ y ∈ xs, pyEq y k = true :=
        fun y hy => hall y (List.mem_cons_of_mem _ hy)
      have hxfresh : pyMem x seen = false := by
        rw [pyMem_congr_left hxk]
        exact hfresh k (List.mem_cons_self _ _)
      simp only [List.cons_append, pyDedupAcc]
      rw [if_neg (by simp [hxfresh])]
      refine List.Forall₂.cons hxk ?_
      have hseen2 : pyMem k (x :: seen) = true := by
        simp only [pyMem, List.any_cons]
        rw [hkx]
        simp
      rw [List.append_eq, pyDedupAcc_all_seen xs hxs hseen2]
      refine ih hpw.2 (fun k' hk' => hmem k' (List.mem_cons_of_mem _ hk'))
        (x :: seen) ?_
      intro k' hk'
      simp only [pyMem, List.any_cons, Bool.or_eq_false_iff]
      constructor
      · rw [pyEq_right_congr hxk k', pyEq_symm k' k]
        exact hpw.1 k' hk'
      · have h5 := hfresh k' (List.mem_cons_of_mem _ hk')
        simpa [pyMem] using h5

/-! ### C7: the two emission orders correspond classwise -/

theorem declared_forall2 {items out : List (String × Yaml)} {bs bs2 : Buckets}
    (hgp : groupPaths items = .ok bs) (hgp2 : groupPaths out = .ok bs2)
    (hperm : out.Perm items) :
    ∀ tor : List Yaml, List.Forall₂ (fun a b => pyEq a b = true)
      (declaredKeysRaw bs2 tor) (declaredKeysRaw bs tor) := by
  intro tor
  induction tor with
  | nil => exact List.Forall₂.nil
  | cons t ts ih =>
    have hiff := find_isSome_congr hgp hgp2 hperm t
    cases hf2 : bucketFind bs2 t with
    | none =>
      have hf1 : bucketFind bs t = none := by
        cases hf1 : bucketFind bs t with
        | none => rfl
        | some kb =>
          rw [hf2, hf1] at hiff
          cases hiff
      rw [declaredKeysRaw_cons_none hf2, declaredKeysRaw_cons_none hf1]
      exact ih
    | some kb2 =>
      cases hf1 : bucketFind bs t with
      | none =>
        rw [hf2, hf1] at hiff
        cases hiff
      | some kb =>
        rw [declaredKeysRaw_cons_some hf2, declaredKeysRaw_cons_some hf1]
        refine List.Forall₂.cons ?_ ih
        have h2 : pyEq kb2.1 t = true := (bucketFind_some hf2).2
        have h1 : pyEq kb.1 t = true := (bucketFind_some hf1).2
        exact pyEq_trans h2 (by rw [pyEq_symm]; exact h1)

theorem dedup_forall2 :
    ∀ {l2 l : List Yaml}, List.Forall₂ (fun a b => pyEq a b = true) l2 l →
      ∀ {seen2 seen : List Yaml},
        (∀ a b, pyEq a b = true → pyMem a seen2 = pyMem b seen) →
        List.Forall₂ (fun a b => pyEq a b = true)
          (pyDedupAcc seen2 l2) (pyDedupAcc seen l) := by
  intro l2 l h
  induction h with
  | nil => intro seen2 seen _; exact List.Forall₂.nil
  | cons hab htl ih =>
    rename_i a b l2' l'
    intro seen2 seen hseen
    simp only [pyDedupAcc]
    have he : pyMem a seen2 = pyMem b seen := hseen a b hab
    cases hm : pyMem b seen with
    | true =>
      have ha : pyMem a seen2 = true := by rw [he, hm]
      rw [if_pos ha, if_pos rfl]
      exact ih hseen
    | false =>
      have ha : pyMem a seen2 = false := by rw [he, hm]
      rw [if_neg (by simp [ha]), if_neg (by simp [hm])]
      refine List.Forall₂.cons hab (ih ?_)
      intro c d hcd
      simp only [pyMem, List.any_cons]
      have h1 : pyEq c a = pyEq d b := by
        rw [pyEq_left_congr hcd a]
        exact pyEq_right_congr hab d
      rw [h1]
      have h2 := hseen c d hcd
      simp only [pyMem] at h2
      rw [h2]

theorem forall2_filter {l2 l1 : List Yaml}
    (h : List.Forall₂ (fun a b => pyEq a b = true) l2 l1)
    {f : Yaml → Bool} (hf : ∀ a b, pyEq a b = true → f a = f b) :
    List.Forall₂ (fun a b => pyEq a b = true) (l2.filter f) (l1.filter f) := by
  induction h with
  | nil => exact List.Forall₂.nil
  | cons hab htl ih =>
    rename_i a b l2' l1'
    simp only [List.filter_cons]
    cases hfb : f b with
    | true =>
      rw [hf a b hab, hfb, if_pos rfl, if_pos rfl]
      exact List.Forall₂.cons hab ih
    | false =>
      rw [hf a b hab, hfb, if_neg Bool.false_ne_true, if_neg Bool.false_ne_true]
      exact ih

theorem forall2_append {R : Yaml → Yaml → Prop} :
    ∀ {l1 l2 u1 u2 : List Yaml}, List.Forall₂ R l1 l2 → List.Forall₂ R u1 u2 →
      List.Forall₂ R (l1 ++ u1) (l2 ++ u2) := by
  intro l1 l2 u1 u2 h1 h2
  induction h1 with
  | nil => simpa using h2
  | cons hab htl ih => exact List.Forall₂.cons hab ih

theorem emitOrderKeys_stored {items : List (String × Yaml)} {bs : Buckets}
    (hgp : groupPaths items = .ok bs) (tor : List Yaml) :
    ∀ k ∈ emitOrderKeys bs tor, ∃ b, (k, b) ∈ bs := by
  intro k hk
  obtain ⟨kb2, hkb2, he⟩ := List.mem_map.mp ((mem_emitOrderKeys hgp tor).mp hk)
  obtain ⟨k2, b2⟩ := kb2
  refine ⟨b2, ?_⟩
  have he' : k2 = k := he
  rw [← he']
  exact hkb2

theorem filter_emitOrderKeys {items : List (String × Yaml)} {bs : Buckets}
    (hgp : groupPaths items = .ok bs) (tor : List Yaml) :
    (emitOrderKeys bs tor).filter
        (fun k => !(pyMem k tor) && !(pyEq k (.str "untagged")))
      = (bs.map Prod.fst).filter
        (fun k => !(pyMem k tor) && !(pyEq k (.str "untagged"))) := by
  rw [emitOrderKeys, List.filter_append, List.filter_append]
  have h1 : (declaredKeys bs tor).filter
      (fun k => !(pyMem k tor) && !(pyEq k (.str "untagged"))) = [] := by
    rw [List.filter_eq_nil_iff]
    intro k hk
    simp [declaredKeys_pyMem k hk]
  have h2 : (match bucketFind bs (.str "untagged") with
      | some kb => if pyMem (.str "untagged") tor then [] else [kb.1]
      | none => ([] : List Yaml)).filter
        (fun k => !(pyMem k tor) && !(pyEq k (.str "untagged"))) = [] := by
    cases hf : bucketFind bs (.str "untagged") with
    | none => rfl
    | some kb =>
      dsimp only
      cases hm : pyMem (.str "untagged") tor with
      | true =>
        rw [if_pos rfl]
        rfl
      | false =>
        rw [if_neg (by simp)]
        have hk : kb.1 = .str "untagged" := pyEq_str_iff.mp (bucketFind_some hf).2
        rw [List.filter_eq_nil_iff]
        intro x hx
        rw [List.mem_singleton] at hx
        subst hx
        rw [hk]
        simp [pyEq]
  have h3 : ((bs.map Prod.fst).filter
      (fun k => !(pyMem k tor) && !(pyEq k (.str "untagged")))).filter
        (fun k => !(pyMem k tor) && !(pyEq k (.str "untagged")))
      = (bs.map Prod.fst).filter
        (fun k => !(pyMem k tor) && !(pyEq k (.str "untagged"))) := by
    rw [List.filter_filter]
    simp only [Bool.and_self]
  rw [h1, h2, h3]
  simp

theorem emit_forall2 {items out : List (String × Yaml)} {bs bs2 : Buckets}
    (hgp : groupPaths items = .ok bs) (hgp2 : groupPaths out = .ok bs2)
    (hperm : out.Perm items) (tor : List Yaml)
    (hmaster : out = segs bs (emitOrderKeys bs tor)) :
    List.Forall₂ (fun a b => pyEq a b = true)
      (emitOrderKeys bs2 tor) (emitOrderKeys bs tor) := by
  have hbs2keys : List.Forall₂ (fun a b => pyEq a b = true)
      (bs2.map Prod.fst) (emitOrderKeys bs tor) := by
    have hk2 := groupPathsAux_keys (show groupPathsAux [] out = .ok bs2 from hgp2)
    simp only [List.map_nil, List.nil_append] at hk2
    rw [hk2, hmaster]
    exact dedup_segs_forall2 hgp (emitOrderKeys bs tor)
      (emitOrderKeys_pairwise hgp tor) (emitOrderKeys_stored hgp tor)
      [] (fun _ _ => rfl)
  have hcond : ∀ a b : Yaml, pyEq a b = true →
      (!(pyMem a tor) && !(pyEq a (.str "untagged")))
        = (!(pyMem b tor) && !(pyEq b (.str "untagged"))) := by
    intro a b hab
    rw [pyMem_congr_left hab, pyEq_left_congr hab]
  have hunl : List.Forall₂ (fun a b => pyEq a b = true)
      ((bs2.map Prod.fst).filter
        (fun k => !(pyMem k tor) && !(pyEq k (.str "untagged"))))
      ((bs.map Prod.fst).filter
        (fun k => !(pyMem k tor) && !(pyEq k (.str "untagged")))) := by
    have h4 := forall2_filter hbs2keys hcond
    rw [filter_emitOrderKeys hgp tor] at h4
    exact h4
  have hdecl : List.Forall₂ (fun a b => pyEq a b = true)
      (declaredKeys bs2 tor) (declaredKeys bs tor) :=
    dedup_forall2 (declared_forall2 hgp hgp2 hperm tor) (fun _ _ _ => rfl)
  have hmid : List.Forall₂ (fun a b => pyEq a b = true)
      (match bucketFind bs2 (.str "untagged") with
        | some kb => if pyMem (.str "untagged") tor then [] else [kb.1]
        | none => ([] : List Yaml))
      (match bucketFind bs (.str "untagged") with
        | some kb => if pyMem (.str "untagged") tor then [] else [kb.1]
        | none => ([] : List Yaml)) := by
    have hiff := find_isSome_congr hgp hgp2 hperm (.str "untagged")
    cases hf2 : bucketFind bs2 (.str "untagged") with
    | none =>
      have hf1 : bucketFind bs (.str "untagged") = none := by
        cases hf1 : bucketFind bs (.str "untagged") with
        | none => rfl
        | some kb =>
          rw [hf2, hf1] at hiff
          cases hiff
      rw [hf1]
      exact List.Forall₂.nil
    | some kb2 =>
      cases hf1 : bucketFind bs (.str "untagged") with
      | none =>
        rw [hf2, hf1] at hiff
        cases hiff
      | some kb =>
        dsimp only
        cases hm : pyMem (.str "untagged") tor with
        | true =>
          rw [if_pos rfl, if_pos rfl]
          exact List.Forall₂.nil
        | false =>
          rw [if_neg (by simp), if_neg (by simp)]
          refine List.Forall₂.cons ?_ List.Forall₂.nil
          have h2 : kb2.1 = .str "untagged" := pyEq_str_iff.mp (bucketFind_some hf2).2
          have h1 : kb.1 = .str "untagged" := pyEq_str_iff.mp (bucketFind_some hf1).2
          rw [h1, h2]
          simp [pyEq]
  rw [emitOrderKeys, emitOrderKeys]
  exact forall2_append (forall2_append hdecl hmid) hunl

/-! ### C7: feeding the output back -/

theorem setPaths_lookup_ne {doc : List (String × Yaml)} (out : List (String × Yaml))
    {k : String} (hk : k ≠ "paths") :
    lookupStr (setPaths doc out) k = lookupStr doc k := by
  induction doc with
  | nil => rfl
  | cons kv rest ih =>
    obtain ⟨k', v'⟩ := kv
    simp only [setPaths, List.map_cons]
    by_cases hp : k' = "paths"
    · subst hp
      rw [if_pos rfl]
      simp only [lookupStr]
      rw [if_neg (fun h => hk h.symm), if_neg (fun h => hk h.symm)]
      exact ih
    · rw [if_neg (by simpa using hp)]
      simp only [lookupStr]
      by_cases he : k' = k
      · rw [if_pos he, if_pos he]
      · rw [if_neg he, if_neg he]
        exact ih

theorem setPaths_lookup_paths {doc : List (String × Yaml)} (out : List (String × Yaml))
    {v : Yaml} (h : lookupStr doc "paths" = some v) :
    lookupStr (setPaths doc out) "paths" = some (.map out) := by
  induction doc with
  | nil => simp [lookupStr] at h
  | cons kv rest ih =>
    obtain ⟨k', v'⟩ := kv
    simp only [setPaths, List.map_cons]
    by_cases hp : k' = "paths"
    · subst hp
      rw [if_pos rfl]
      simp [lookupStr]
    · rw [if_neg (by simpa using hp)]
      simp only [lookupStr] at h ⊢
      rw [if_neg hp] at h
      rw [if_neg hp]
      exact ih h

theorem groupPathsAux_ok_of_primaries {l : List (String × Yaml)}
    (h : ∀ pv ∈ l, ∃ k, pathPrimary pv.2 = .ok k ∧ hashable k = true) :
    ∀ bs, ∃ bs', groupPathsAux bs l = .ok bs' := by
  induction l with
  | nil => intro bs; exact ⟨bs, rfl⟩
  | cons pv rest ih =>
    intro bs
    obtain ⟨k, hk, hh⟩ := h pv (List.mem_cons_self _ _)
    cases hs : scanPath pv.2 with
    | error e =>
      exfalso
      simp only [pathPrimary, hs, Except.map] at hk
      exact Except.noConfusion hk
    | ok r =>
      have hbk : bucketKeyOf r = k := by
        simp only [pathPrimary, hs, Except.map] at hk
        injection hk
      obtain ⟨bs', hbs'⟩ := ih (fun qv hq => h qv (List.mem_cons_of_mem _ hq))
        (addToBucket bs (bucketKeyOf r) pv)
      refine ⟨bs', ?_⟩
      simp only [groupPathsAux, hs]
      rw [if_pos (by rw [hbk]; exact hh)]
      exact hbs'

theorem reorganize_build {d : List (String × Yaml)} {tor : List Yaml}
    {items2 : List (String × Yaml)} {bs2 : Buckets} {np2 : List (String × Yaml)}
    (hT : tagOrderOf d = .ok tor)
    (hP : lookupStr d "paths" = some (.map items2))
    (hG : groupPaths items2 = .ok bs2)
    (hD : emitDeclared bs2 tor [] = .ok np2) :
    reorganize_paths_by_tags d
      = .ok (emitUnlistedAux tor bs2 (emitUntagged bs2 np2)) := by
  simp only [reorganize_paths_by_tags, hT, hP, hG, hD]

/-- **C7**: idempotence — on a successful run, replacing the document's
`paths` field by the produced mapping (tags unchanged) and running the
transformation again succeeds and returns exactly the same mapping, in the
same key order. -/
theorem C7_idempotent (doc out items : List (String × Yaml))
    (hok : reorganize_paths_by_tags doc = .ok out)
    (hpaths : lookupStr doc "paths" = some (.map items))
    (hnd : (items.map Prod.fst).Nodup) :
    reorganize_paths_by_tags (setPaths doc out) = .ok out := by
  obtain ⟨tor, items', bs, np1, htor, hpaths', hgp, hnp1, hout⟩ :=
    reorganize_ok_parts hok
  rw [hpaths] at hpaths'
  injection hpaths' with h2
  injection h2 with h2
  subst h2
  have hmaster := reorganize_master hgp hnp1 hout hnd
  have hperm : out.Perm items := out_perm_items hgp hnp1 hout hnd
  have hnd2 : (out.map Prod.fst).Nodup := ((hperm.map Prod.fst).nodup_iff).mpr hnd
  -- the second document has the same tag order and `out` as its paths
  have hT2 : tagOrderOf (setPaths doc out) = .ok tor := by
    have hlk : lookupStr (setPaths doc out) "tags" = lookupStr doc "tags" :=
      setPaths_lookup_ne out (by decide)
    unfold tagOrderOf
    rw [hlk]
    exact htor
  have hP2 : lookupStr (setPaths doc out) "paths" = some (.map out) :=
    setPaths_lookup_paths out hpaths
  -- the second grouping succeeds
  have hgp' : groupPathsAux [] items = .ok bs := hgp
  have hscans : ∀ pv ∈ out, ∃ k, pathPrimary pv.2 = .ok k ∧ hashable k = true :=
    fun pv hpv => groupPathsAux_scan_ok hgp' pv (hperm.mem_iff.mp hpv)
  obtain ⟨bs2, hgp2'⟩ := groupPathsAux_ok_of_primaries hscans []
  have hgp2 : groupPaths out = .ok bs2 := hgp2'
  -- loop 1 of the second run succeeds
  obtain ⟨np2, hnp2⟩ :=
    emitDeclared_ok (emitDeclared_hashable hnp1) bs2 ([] : List (String × Yaml))
  -- assemble the second run and identify its output with the first
  rw [reorganize_build hT2 hP2 hgp2 hnp2]
  have hm2 : emitUnlistedAux tor bs2 (emitUntagged bs2 np2)
      = segs bs2 (emitOrderKeys bs2 tor) :=
    reorganize_master hgp2 hnp2 rfl hnd2
  rw [hm2, segs_congr hgp hgp2 hperm hnd (emit_forall2 hgp hgp2 hperm tor hmaster),
    ← hmaster]

/-- Witness for C7 at the pets/store scenario: running the transformation on
the document whose paths were replaced by the first output returns that
output unchanged. -/
theorem C7_idempotent_witness :
    reorganize_paths_by_tags
        (setPaths
          [("tags", .seq [.map [("name", .str "pets")], .map [("name", .str "store")]]),
           ("paths", .map
             [("/store/order", .map [("get", .map [("tags", .seq [.str "store"])])]),
              ("/pets", .map [("get", .map [("tags", .seq [.str "pets"])])]),
              ("/pets/{id}", .map [("get", .map [("tags", .seq [.str "pets"])])])])]
          [("/pets", .map [("get", .map [("tags", .seq [.str "pets"])])]),
           ("/pets/{id}", .map [("get", .map [("tags", .seq [.str "pets"])])]),
           ("/store/order", .map [("get", .map [("tags", .seq [.str "store"])])])])
      = .ok
          [("/pets", .map [("get", .map [("tags", .seq [.str "pets"])])]),
           ("/pets/{id}", .map [("get", .map [("tags", .seq [.str "pets"])])]),
           ("/store/order", .map [("get", .map [("tags", .seq [.str "store"])])])] :=
  C7_idempotent
    [("tags", .seq [.map [("name", .str "pets")], .map [("name", .str "store")]]),
     ("paths", .map
       [("/store/order", .map [("get", .map [("tags", .seq [.str "store"])])]),
        ("/pets", .map [("get", .map [("tags", .seq [.str "pets"])])]),
        ("/pets/{id}", .map [("get", .map [("tags", .seq [.str "pets"])])])])]
    [("/pets", .map [("get", .map [("tags", .seq [.str "pets"])])]),
     ("/pets/{id}", .map [("get", .map [("tags", .seq [.str "pets"])])]),
     ("/store/order", .map [("get", .map [("tags", .seq [.str "store"])])])]
    [("/store/order", .map [("get", .map [("tags", .seq [.str "store"])])]),
     ("/pets", .map [("get", .map [("tags", .seq [.str "pets"])])]),
     ("/pets/{id}", .map [("get", .map [("tags", .seq [.str "pets"])])])]
    rfl rfl (by decide)
